import Mathlib

/-!
# Verification of the CrowForge spreadsheet formula engine

Shallow embedding of `src/backend/formula.py` (reference codec, regex-driven
substitution passes, recursive-descent arithmetic parser, dependency graph with
Kahn topological sort, and the `recalculate` orchestration), together with
theorems settling the frozen claims about the engine.

Modelling conventions:
* Python numbers (floats) are modelled as exact fractions (`PyNum`); every
  claim only exercises values where float arithmetic is exact, so the model
  agrees with the source there.
* Python exceptions are modelled with `Except PyErr`; mutable state (the
  memoisation cache) is threaded explicitly, and mutations performed before an
  exception are preserved by the `EvalM` monad (state-passing even on error),
  matching in-place mutation plus `raise`.
* Python `dict`s are insertion-ordered association lists; Python `set`s are
  modelled as insertion-ordered duplicate-free lists (CPython iterates sets in
  a hash-dependent but run-deterministic order; the spec itself only promises
  "deterministic-within-a-run" tie-breaking, so the embedding fixes insertion
  order as the determinisation).
* Strings are processed as their character lists.
-/

set_option maxHeartbeats 1000000

deriving instance DecidableEq for Except
deriving instance DecidableEq for Sum

namespace CrowForge

/-- Python exception classes raised by the engine.  The four `FormulaError`
subclasses are distinguished from the base class (`formulaErr`, which carries
an explicit code as in `FormulaError(msg, code=...)`) and from builtin
exceptions (`TypeError` / `ValueError` / `IndexError` / `KeyError`) that are
not `FormulaError`s. -/
inductive PyErr where
  | syntaxErr : PyErr                -- FormulaSyntaxError, code "#ERROR"
  | divZero : PyErr                  -- DivisionByZeroError, code "#DIV/0"
  | invalidRef : PyErr               -- InvalidRefError, code "#REF"
  | cycleErr : PyErr                 -- CycleError, code "#CYCLE"
  | formulaErr (code : String) : PyErr  -- plain FormulaError with given code
  | typeErr : PyErr                  -- builtin TypeError
  | valueErr : PyErr                 -- builtin ValueError
  | indexErr : PyErr                 -- builtin IndexError
  | keyErr : PyErr                   -- builtin KeyError
  deriving DecidableEq, Repr

/-- The `.code` attribute of a `FormulaError`. -/
def PyErr.code : PyErr → String
  | .syntaxErr => "#ERROR"
  | .divZero => "#DIV/0"
  | .invalidRef => "#REF"
  | .cycleErr => "#CYCLE"
  | .formulaErr c => c
  | .typeErr => "#ERROR"
  | .valueErr => "#ERROR"
  | .indexErr => "#ERROR"
  | .keyErr => "#ERROR"

/-- Whether the exception is an instance of `FormulaError`. -/
def PyErr.isFormulaError : PyErr → Bool
  | .syntaxErr => true
  | .divZero => true
  | .invalidRef => true
  | .cycleErr => true
  | .formulaErr _ => true
  | _ => false

/-- The string `recalculate` writes into a cell for a caught exception:
`except FormulaError as e` writes `e.code`, the `except Exception` catch-all
writes `"#ERROR"`. -/
def errWrite (e : PyErr) : String :=
  if e.isFormulaError then e.code else "#ERROR"

-- ── Numbers ──────────────────────────────────────────────────────

/-- Python float values, modelled exactly as fractions: an integer numerator
over a positive natural denominator, not necessarily in lowest terms
(`normalize` reduces when a value is rendered).  Every claim only exercises
values where IEEE double arithmetic is exact, so the fraction model agrees
with the source there.  (Mathlib's `ℚ` is not used because its kernel-level
arithmetic is `@[irreducible]`, which would keep concrete runs of the engine
from evaluating inside proofs.) -/
structure PyNum where
  num : Int
  den : Nat
  deriving DecidableEq, Repr

namespace PyNum

instance : OfNat PyNum n := ⟨⟨n, 1⟩⟩

/-- Exact float addition. -/
def add (a b : PyNum) : PyNum := ⟨a.num * b.den + b.num * a.den, a.den * b.den⟩

/-- Exact float subtraction. -/
def sub (a b : PyNum) : PyNum := ⟨a.num * b.den - b.num * a.den, a.den * b.den⟩

/-- Exact float multiplication. -/
def mul (a b : PyNum) : PyNum := ⟨a.num * b.num, a.den * b.den⟩

/-- Exact float division (callers guard the divisor against zero; the
denominator stays positive). -/
def div (a b : PyNum) : PyNum :=
  if b.num < 0 then ⟨-(a.num * b.den), a.den * b.num.natAbs⟩
  else ⟨a.num * b.den, a.den * b.num.natAbs⟩

/-- Unary minus. -/
def neg (a : PyNum) : PyNum := ⟨-a.num, a.den⟩

instance : Add PyNum := ⟨add⟩
instance : Sub PyNum := ⟨sub⟩
instance : Mul PyNum := ⟨mul⟩
instance : Div PyNum := ⟨div⟩
instance : Neg PyNum := ⟨neg⟩

/-- Strict float comparison (cross-multiplication; denominators positive). -/
def lt (a b : PyNum) : Bool := a.num * b.den < b.num * a.den

/-- The fraction in lowest terms, `(numerator, denominator)`. -/
def normalize (a : PyNum) : Int × Nat :=
  let g := Nat.gcd a.num.natAbs a.den
  if g = 0 then (0, 1) else (a.num / g, a.den / g)

/-- The mathematical value (for specification statements only). -/
def toRat (a : PyNum) : ℚ := (a.num : ℚ) / (a.den : ℚ)

end PyNum

/-- Python `min` over floats: keep the current value, replace it when a later
one is strictly smaller. -/
def qmin2 (c x : PyNum) : PyNum := if x.lt c then x else c

/-- Python `max` over floats: replace the current value when a later one is
strictly larger. -/
def qmax2 (c x : PyNum) : PyNum := if c.lt x then x else c

-- ── Character classes ────────────────────────────────────────────

/-- `[A-Za-z]` (the regex letter class used by the reference patterns). -/
def isLetter (c : Char) : Bool :=
  ('A' ≤ c && c ≤ 'Z') || ('a' ≤ c && c ≤ 'z')

/-- ASCII decimal digit, the `\d` class for the inputs the engine handles. -/
def isDigitCh (c : Char) : Bool :=
  '0' ≤ c && c ≤ '9'

/-- Python `\s` / `str.strip` whitespace (ASCII part). -/
def isSpacePy (c : Char) : Bool :=
  c = ' ' || c = '\t' || c = '\n' || c = '\r' || c = '\x0b' || c = '\x0c'

/-- Python `str.strip()` on a character list. -/
def stripPy (l : List Char) : List Char :=
  ((l.dropWhile isSpacePy).reverse.dropWhile isSpacePy).reverse

/-- Numeric value of an ASCII digit. -/
def digitVal (c : Char) : Nat := c.toNat - 48

/-- Value of a list of ASCII digits read in base 10. -/
def digitsVal (l : List Char) : Nat :=
  l.foldl (fun n c => n * 10 + digitVal c) 0

/-- Python `int(s)`: optional whitespace, optional sign, one or more ASCII
digits (digit-group underscores are not modelled; no claim involves them).
Raises `ValueError` otherwise. -/
def pyInt (s : String) : Except PyErr Int :=
  let l := stripPy s.data
  match l with
  | '-' :: rest =>
      if rest ≠ [] ∧ rest.all isDigitCh then .ok (-(digitsVal rest : Int)) else .error .valueErr
  | '+' :: rest =>
      if rest ≠ [] ∧ rest.all isDigitCh then .ok (digitsVal rest : Int) else .error .valueErr
  | _ =>
      if l ≠ [] ∧ l.all isDigitCh then .ok (digitsVal l : Int) else .error .valueErr

-- ── Reference codec (src/backend/formula.py lines 54-118) ────────

/-- `col_to_index`: `A->0, B->1, ..., Z->25, AA->26` (`n = n*26 + ord(ch)-ord('A')+1`
over the upper-cased letters, minus one overall). -/
def col_to_index (col : List Char) : Int :=
  (col.foldl (fun n ch => n * 26 + ((ch.toUpper.toNat : Int) - 65 + 1)) 0) - 1

/-- Loop body of `index_to_col`: `while idx > 0: idx, rem = divmod(idx - 1, 26);
result = chr(rem + ord('A')) + result`.  Structural fuel (one unit per loop
iteration; the quotient strictly decreases, so `idx` units always suffice). -/
def index_to_col_aux : Nat → Nat → List Char → List Char
  | 0, _, acc => acc
  | fuel + 1, idx, acc =>
      if idx > 0 then
        index_to_col_aux fuel ((idx - 1) / 26)
          (Char.ofNat ((idx - 1) % 26 + 65) :: acc)
      else acc

/-- `index_to_col`: `0->A, 1->B, ..., 25->Z, 26->AA`. -/
def index_to_col (idx : Nat) : List Char :=
  index_to_col_aux (idx + 2) (idx + 1) []

/-- `parse_cell_ref`: `'A1' -> (row=0, col=0)`; the text is stripped and must
match `^([A-Za-z]{1,3})(\d{1,7})$` with a textual row ≥ 1, else
`InvalidRefError`. -/
def parse_cell_ref (ref : List Char) : Except PyErr (Int × Int) :=
  let s := stripPy ref
  let letters := s.takeWhile isLetter
  let digits := s.drop letters.length
  if letters.length < 1 ∨ 3 < letters.length then .error .invalidRef
  else if digits.length < 1 ∨ 7 < digits.length ∨ ¬ digits.all isDigitCh then .error .invalidRef
  else
    let row : Int := (digitsVal digits : Int) - 1
    if row < 0 then .error .invalidRef
    else .ok (row, col_to_index letters)

/-- `expand_range`: `'A1:B3' -> ` row-major list of `(row, col)` covering the
rectangle spanned by the two (min/max-normalised) corners. -/
def expand_range (range : List Char) : Except PyErr (List (Int × Int)) :=
  match range.splitOn ':' with
  | [a, b] => do
      let (r1, c1) ← parse_cell_ref a
      let (r2, c2) ← parse_cell_ref b
      let rlo := min r1 r2
      let rhi := max r1 r2
      let clo := min c1 c2
      let chi := max c1 c2
      .ok <| ((List.range (rhi - rlo + 1).toNat).map fun i => rlo + i).flatMap
        fun r => ((List.range (chi - clo + 1).toNat).map fun j => clo + j).map
          fun c => (r, c)
  | _ => .error .invalidRef

-- ── Regex scanning (re.sub / re.finditer, left-to-right, non-overlapping) ──

/-- One left-to-right, non-overlapping scan of a character list with a matcher
that reports match data and the number of characters consumed (always ≥ 1 for
the patterns used here).  Produces the interleaving of unmatched literal
characters and matches, as `re.sub`/`re.finditer` see them.  Structural fuel:
every step consumes at least one character, so `length + 1` units suffice. -/
def scanAux (m : List Char → Option (α × Nat)) : Nat → List Char → List (Sum Char α)
  | 0, _ => []
  | _ + 1, [] => []
  | fuel + 1, c :: cs =>
      match m (c :: cs) with
      | some (a, n) => .inr a :: scanAux m fuel (cs.drop (n - 1))
      | none => .inl c :: scanAux m fuel cs

/-- Scan a whole character list (see `scanAux`). -/
def scanWith (m : List Char → Option (α × Nat)) (l : List Char) : List (Sum Char α) :=
  scanAux m (l.length + 1) l

/-- Pure `re.sub`: replace each match by `repl` applied to its data. -/
def subPieces (repl : α → List Char) : List (Sum Char α) → List Char
  | [] => []
  | .inl c :: t => c :: subPieces repl t
  | .inr a :: t => repl a ++ subPieces repl t

/-- Try to match `[A-Za-z]{1,3}\d{1,7}` at the head of `l` with exactly `k`
letters: `k` leading letters followed by 1-7 digits (digits greedy; nothing in
the pattern can follow a digit, so greedy digit matching is exact). -/
def tryRefK (k : Nat) (l : List Char) : Option ((List Char × List Char) × Nat) :=
  let letters := l.take k
  if letters.length = k && letters.all isLetter then
    let ds := ((l.drop k).takeWhile isDigitCh).take 7
    if ds.isEmpty then none
    else some ((letters, ds), k + ds.length)
  else none

/-- Match `[A-Za-z]{1,3}\d{1,7}` at the head of `l` (the `_BARE_REF_RE` /
`_SHIFT_REF_RE` pattern).  Greedy on the letter count with backtracking: three
letters are preferred, then two, then one. -/
def matchRefAt (l : List Char) : Option ((List Char × List Char) × Nat) :=
  (tryRefK 3 l).orElse fun _ => (tryRefK 2 l).orElse fun _ => tryRefK 1 l

-- ── shift_refs (lines 72-92) ─────────────────────────────────────

/-- `_replace` inside `shift_refs`: shift one matched reference, raising
`InvalidRefError` if the shifted row or column would be negative. -/
def shiftReplace (rowD colD : Int) (m : List Char × List Char) : Except PyErr (List Char) :=
  let newCol := col_to_index m.1 + colD
  let newRow := (digitsVal m.2 : Int) - 1 + rowD
  if newCol < 0 ∨ newRow < 0 then .error .invalidRef
  else .ok (index_to_col newCol.toNat ++ (toString (newRow + 1)).data)

/-- `re.sub` with a replacement callback that may raise; the first raising
match aborts the whole substitution (as an exception would in Python). -/
def subPiecesE (repl : α → Except PyErr (List Char)) :
    List (Sum Char α) → Except PyErr (List Char)
  | [] => .ok []
  | .inl c :: t => do
      let rest ← subPiecesE repl t
      .ok (c :: rest)
  | .inr a :: t => do
      let r ← repl a
      let rest ← subPiecesE repl t
      .ok (r ++ rest)

/-- `shift_refs`: shift all cell references in a formula by
`(row_delta, col_delta)`; the leading character is passed through verbatim
(`formula[0]`, raising `IndexError` on an empty string) and if any shifted
reference would go negative the original formula is returned unchanged. -/
def shift_refs (formula : String) (rowD colD : Int) : Except PyErr String :=
  match formula.data with
  | [] => .error .indexErr
  | c :: rest =>
      match subPiecesE (shiftReplace rowD colD) (scanWith matchRefAt rest) with
      | .ok s => .ok (String.mk (c :: s))
      | .error .invalidRef => .ok formula
      | .error e => .error e

-- ── Numeric formatting (lines 121-125) ───────────────────────────

/-- Digits of `m` (a nonnegative integer) padded on the left with zeros to
width `k`, as a character list. -/
def padDigits (m : Nat) (k : Nat) : List Char :=
  let d := (toString m).data
  List.replicate (k - d.length) '0' ++ d

/-- Drop trailing `'0'` characters. -/
def dropTrailZeros (l : List Char) : List Char :=
  (l.reverse.dropWhile (· = '0')).reverse

/-- Models Python `f"{value:.10g}"` on a rational `p / q` in lowest terms
(`p, q > 0`, sign handled by the caller): ten significant digits (half-up),
fixed-point for decimal exponents in `[-4, 10)`, scientific notation
otherwise, insignificant trailing zeros trimmed.  Only non-integral or huge
results reach this; no verified claim exercises it. -/
def format10gPos (p q : Nat) : String :=
  -- decimal exponent: the unique e with 10^e ≤ p/q < 10^(e+1)
  let lt10pow : Int → Bool := fun e =>
    if 0 ≤ e then p < q * 10 ^ e.toNat else p * 10 ^ (-e).toNat < q
  let fix : Int → Int := fun e =>
    if lt10pow e then e - 1 else if ¬ lt10pow (e + 1) then e + 1 else e
  let e := fix (fix ((Nat.log 10 p : Int) - (Nat.log 10 q : Int)))
  -- m = round(p/q · 10^(9-e)), a 10-digit mantissa (or 10^10 on round-up)
  let s : Int := 9 - e
  let m :=
    if 0 ≤ s then (2 * p * 10 ^ s.toNat + q) / (2 * q)
    else (2 * p + q * 10 ^ (-s).toNat) / (2 * q * 10 ^ (-s).toNat)
  let em : Int × Nat := if m = 10 ^ 10 then (e + 1, 10 ^ 9) else (e, m)
  let e := em.1
  let ds := padDigits em.2 10
  if -4 ≤ e ∧ e < 10 then
    if 0 ≤ e then
      let ip := ds.take (e.toNat + 1)
      let fp := dropTrailZeros (ds.drop (e.toNat + 1))
      String.mk ip ++ (if fp.isEmpty then "" else "." ++ String.mk fp)
    else
      "0." ++ String.mk (List.replicate (-e - 1).toNat '0' ++ dropTrailZeros ds)
  else
    let fp := dropTrailZeros (ds.drop 1)
    String.mk (ds.take 1) ++ (if fp.isEmpty then "" else "." ++ String.mk fp) ++
      "e" ++ (if e < 0 then "-" else "+") ++ String.mk (padDigits e.natAbs 2)

/-- `f"{value:.10g}"` (see `format10gPos`). -/
def format10g (v : PyNum) : String :=
  let nd := v.normalize
  if nd.1 = 0 then "0"
  else (if nd.1 < 0 then "-" else "") ++ format10gPos nd.1.natAbs nd.2

/-- `format_result`: integral values of magnitude below `1e15`
(`value == int(value) and abs(value) < 1e15`) render as plain integers
(`str(int(value))`), everything else through the `%.10g` format. -/
def format_result (v : PyNum) : String :=
  let nd := v.normalize
  if nd.2 = 1 ∧ nd.1.natAbs < 10 ^ 15 then toString nd.1
  else format10g v

/-- Models Python `str(...)` applied to a float value, used when evaluation
splices a computed number back into the expression text before re-parsing.
Integral values render as `"<int>.0"`; other values as their shortest
terminating decimal expansion (`v.den` divides a power of ten), truncated to
17 decimal places when the expansion does not terminate.  In the exact
small-value regime exercised by the claims this agrees with float `repr`;
far outside it (magnitudes ≥ 1e16, non-terminating expansions) float `repr`
would differ, a divergence inherent to modelling floats by rationals. -/
def pyStr (v : PyNum) : String :=
  let nd := v.normalize
  let sign := if nd.1 < 0 then "-" else ""
  let p := nd.1.natAbs
  let q := nd.2
  if q = 1 then sign ++ toString p ++ ".0"
  else
    match (List.range 18).find? (fun k => p * 10 ^ k % q = 0) with
    | some k =>
        let m := p * 10 ^ k / q
        sign ++ toString (m / 10 ^ k) ++ "." ++ String.mk (padDigits (m % 10 ^ k) k)
    | none =>
        let m := p * 10 ^ 17 / q
        let fp := dropTrailZeros (padDigits (m % 10 ^ 17) 17)
        sign ++ toString (m / 10 ^ 17) ++ "." ++
          String.mk (if fp.isEmpty then ['0'] else fp)

-- ── Function-call matching (`_FUNC_RE`) ──────────────────────────

/-- The alternation `SUM|AVG|AVERAGE|COUNT|MIN|MAX`, in source order (no name
matches a prefix another name matches at the same position, so ordered
first-match equals regex alternation with backtracking). -/
def funcNames : List String := ["SUM", "AVG", "AVERAGE", "COUNT", "MIN", "MAX"]

/-- Case-insensitive literal prefix match; returns the remainder. -/
def ciPrefix : List Char → List Char → Option (List Char)
  | [], l => some l
  | _, [] => none
  | p :: ps, c :: cs => if c.toUpper = p then ciPrefix ps cs else none

/-- Try each alternation branch in order. -/
def tryNames : List String → List Char → Option (String × List Char)
  | [], _ => none
  | n :: ns, l =>
      match ciPrefix n.data l with
      | some rest => some (n, rest)
      | none => tryNames ns l

/-- `\s*`. -/
def skipWs (l : List Char) : List Char := l.dropWhile isSpacePy

/-- A match of `_FUNC_RE`: the (upper-cased) function name and the two range
endpoint texts (groups 2 and 3). -/
structure FuncMatch where
  name : String
  ref1 : List Char
  ref2 : List Char
  deriving DecidableEq, Repr

/-- Match `(SUM|AVG|AVERAGE|COUNT|MIN|MAX)\(\s*REF\s*:\s*REF\s*\)` (with
`REF = [A-Za-z]{1,3}\d{1,7}`, case-insensitive) at the head of `l`. -/
def matchFuncAt (l : List Char) : Option (FuncMatch × Nat) :=
  match tryNames funcNames l with
  | none => none
  | some (name, r1) =>
      match r1 with
      | '(' :: r2 =>
          let r3 := skipWs r2
          match matchRefAt r3 with
          | none => none
          | some ((l1, d1), n1) =>
              let r5 := skipWs (r3.drop n1)
              match r5 with
              | ':' :: r6 =>
                  let r7 := skipWs r6
                  match matchRefAt r7 with
                  | none => none
                  | some ((l2, d2), n2) =>
                      let r9 := skipWs (r7.drop n2)
                      match r9 with
                      | ')' :: r10 => some (⟨name, l1 ++ d1, l2 ++ d2⟩, l.length - r10.length)
                      | _ => none
              | _ => none
      | _ => none

/-- Does `[A-Za-z]+\(` occur anywhere in `l`?  (The leftover-function check
run after `_FUNC_RE` substitution.) -/
def hasAlphaParen : List Char → Bool
  | [] => false
  | [_] => false
  | a :: b :: t => (isLetter a && b = '(') || hasAlphaParen (b :: t)

-- ── Reference extraction (lines 130-155) ─────────────────────────

/-- Canonical `"row,col"` cell key. -/
def keyOf (r c : Int) : String := toString r ++ "," ++ toString c

/-- Add to a modelled Python `set` (insertion-ordered, duplicate-free list). -/
def addRef (acc : List String) (k : String) : List String :=
  if k ∈ acc then acc else acc ++ [k]

/-- `extract_refs`: the set of `"row,col"` keys read by a formula — function
ranges first (expanded row-major, parse failures skipped), then bare
references remaining after the function calls are replaced by `'0'`. -/
def extract_refs (formula : String) : List String :=
  let body := stripPy (formula.data.dropWhile (· = '='))
  let funcPieces := scanWith matchFuncAt body
  let refs1 := funcPieces.foldl (fun acc p =>
    match p with
    | .inl _ => acc
    | .inr fm =>
        match expand_range (fm.ref1 ++ ':' :: fm.ref2) with
        | .ok cells => cells.foldl (fun a rc => addRef a (keyOf rc.1 rc.2)) acc
        | .error _ => acc) []
  let reduced := subPieces (fun _ => ['0']) funcPieces
  (scanWith matchRefAt reduced).foldl (fun acc p =>
    match p with
    | .inl _ => acc
    | .inr m =>
        match parse_cell_ref (m.1 ++ m.2) with
        | .ok (r, c) => addRef acc (keyOf r c)
        | .error _ => acc) refs1

-- ── Arithmetic parser (`_Parser`, lines 323-400) ─────────────────

/-- `float()` applied to a scanned number token (digits with at most one dot,
nonempty): `float(".")` raises `ValueError`, otherwise integer and fractional
parts are read off. -/
def pyFloatDigits (pre : List Char) : Except PyErr PyNum :=
  match pre.splitOn '.' with
  | [ip] => .ok ⟨digitsVal ip, 1⟩
  | [ip, fp] =>
      if ip.isEmpty ∧ fp.isEmpty then .error .valueErr
      else .ok ⟨digitsVal ip * 10 ^ fp.length + digitsVal fp, 10 ^ fp.length⟩
  | _ => .error .valueErr

/-- `_Parser._number`: scan digits and dots; a second dot or an empty scan is
a syntax error, then the scanned text goes through `float()`. -/
def parseNumber (l : List Char) : Except PyErr (PyNum × List Char) :=
  let pre := l.takeWhile (fun c => isDigitCh c || c = '.')
  if 2 ≤ pre.countP (· = '.') then .error .syntaxErr
  else if pre.isEmpty then .error .syntaxErr
  else do
    let v ← pyFloatDigits pre
    .ok (v, l.drop pre.length)

mutual

/-- `_Parser._factor`: parenthesised expression, unary sign, or number.
Structural fuel: every recursion level either consumes a character or moves
one step down the `expr → term → factor` chain, so `3·length + 8` units
always suffice for the top-level entry point. -/
def pFactor : Nat → List Char → Except PyErr (PyNum × List Char)
  | 0, _ => .error .syntaxErr
  | fuel + 1, l =>
      match l with
      | '(' :: rest => do
          let (v, l1) ← pExpr fuel rest
          match l1 with
          | ')' :: l2 => .ok (v, l2)
          | _ => .error .syntaxErr
      | '-' :: rest => do
          let (v, l1) ← pFactor fuel rest
          .ok (-v, l1)
      | '+' :: rest => pFactor fuel rest
      | _ => parseNumber l

/-- `_Parser._term`: left-associative `*` and `/` over factors. -/
def pTerm : Nat → List Char → Except PyErr (PyNum × List Char)
  | 0, _ => .error .syntaxErr
  | fuel + 1, l => do
      let (v, l1) ← pFactor fuel l
      pTermLoop fuel v l1

/-- The `while` loop of `_term`; a zero right operand of `/` raises
`DivisionByZeroError` before dividing. -/
def pTermLoop : Nat → PyNum → List Char → Except PyErr (PyNum × List Char)
  | 0, _, _ => .error .syntaxErr
  | fuel + 1, acc, l =>
      match l with
      | '*' :: rest => do
          let (r, l1) ← pFactor fuel rest
          pTermLoop fuel (acc * r) l1
      | '/' :: rest => do
          let (r, l1) ← pFactor fuel rest
          if r.num = 0 then .error .divZero else pTermLoop fuel (acc / r) l1
      | _ => .ok (acc, l)

/-- `_Parser._expr`: left-associative `+` and `-` over terms. -/
def pExpr : Nat → List Char → Except PyErr (PyNum × List Char)
  | 0, _ => .error .syntaxErr
  | fuel + 1, l => do
      let (v, l1) ← pTerm fuel l
      pExprLoop fuel v l1

/-- The `while` loop of `_expr`. -/
def pExprLoop : Nat → PyNum → List Char → Except PyErr (PyNum × List Char)
  | 0, _, _ => .error .syntaxErr
  | fuel + 1, acc, l =>
      match l with
      | '+' :: rest => do
          let (r, l1) ← pTerm fuel rest
          pExprLoop fuel (acc + r) l1
      | '-' :: rest => do
          let (r, l1) ← pTerm fuel rest
          pExprLoop fuel (acc - r) l1
      | _ => .ok (acc, l)

end

/-- `_Parser(text).parse()`: spaces removed up front, empty text and
unconsumed trailing characters are syntax errors. -/
def pyParse (text : List Char) : Except PyErr PyNum :=
  let t := text.filter (· ≠ ' ')
  if t.isEmpty then .error .syntaxErr
  else
    match pExpr (3 * t.length + 8) t with
    | .ok (v, []) => .ok v
    | .ok (_, _ :: _) => .error .syntaxErr
    | .error e => .error e

-- ── Validation (`validate_formula`, lines 251-318) ───────────────

/-- Running parenthesis depth never negative and zero at the end. -/
def parenBalanced : List Char → Int → Bool
  | [], d => d = 0
  | ch :: t, d =>
      let d := if ch = '(' then d + 1 else if ch = ')' then d - 1 else d
      if d < 0 then false else parenBalanced t d

/-- The `_VALID_ARITH_RE` character class. -/
def isArithChar (ch : Char) : Bool :=
  isDigitCh ch || ch = '.' || ch = '+' || ch = '-' || ch = '*' || ch = '/' ||
    ch = '(' || ch = ')' || isSpacePy ch

/-- `validate_formula`: syntax check without evaluation.  The two callbacks
passed to `re.sub` return `None` for a malformed reference; CPython's `re.sub`
treats a `None` callback result as an *empty replacement* (the match is
deleted and joining proceeds), so substitution never fails and `re.sub` never
returns `None` — the source's `if reduced is None: return "#REF"` branches
are unreachable.  A lone `.` surviving to the trial parse raises `ValueError`
from `float()`, which none of the `except` clauses catch. -/
def validate_formula (formula : String) : Except PyErr (Option String) :=
  match formula.data with
  | [] => .ok (some "#ERROR")
  | c0 :: body0 =>
      if c0 ≠ '=' then .ok (some "#ERROR")
      else
        let body := stripPy body0
        if body.isEmpty then .ok (some "#ERROR")
        else
          let reduced := subPieces (fun fm : FuncMatch =>
              match parse_cell_ref fm.ref1, parse_cell_ref fm.ref2 with
              | .ok _, .ok _ => ['0']
              | _, _ => []) (scanWith matchFuncAt body)
          if hasAlphaParen reduced then .ok (some "#ERROR")
          else
            let reduced2 := subPieces (fun m : List Char × List Char =>
                match parse_cell_ref (m.1 ++ m.2) with
                | .ok _ => ['0']
                | .error _ => []) (scanWith matchRefAt reduced)
            if ¬ reduced2.all isArithChar then .ok (some "#ERROR")
            else if ¬ parenBalanced reduced2 0 then .ok (some "#ERROR")
            else
              match pyParse reduced2 with
              | .ok _ => .ok none
              | .error e =>
                  if e = .syntaxErr then .ok (some "#ERROR")
                  else if e.isFormulaError then .ok none
                  else .error e

-- ── Dependency graph (lines 158-246) ─────────────────────────────

/-- `DependencyGraph.MAX_DEPTH`. -/
def MAX_DEPTH : Nat := 20

/-- The two edge maps of `DependencyGraph` (insertion-ordered dicts whose set
values are insertion-ordered duplicate-free lists). -/
structure DepGraph where
  forward : List (String × List String)
  reverse : List (String × List String)
  deriving DecidableEq, Repr

/-- Dict update that keeps the original key position (Python dict
assignment). -/
def alistUpsert [DecidableEq α] (l : List (α × β)) (k : α) (v : β) : List (α × β) :=
  if (l.lookup k).isSome then l.map (fun kv => if kv.1 = k then (k, v) else kv)
  else l ++ [(k, v)]

/-- `self.reverse.setdefault(ref, set()).add(key)` (spelled out in the
source as a membership test plus `add`). -/
def reverseAdd (rev : List (String × List String)) (ref key : String) :
    List (String × List String) :=
  match rev.lookup ref with
  | none => rev ++ [(ref, [key])]
  | some s => alistUpsert rev ref (addRef s key)

/-- `DependencyGraph.__init__`: extract each formula's references into
`forward` and register the formula against each reference in `reverse`. -/
def buildGraph (formulas : List (String × String)) : DepGraph :=
  formulas.foldl (fun g kf =>
    let refs := extract_refs kf.2
    { forward := alistUpsert g.forward kf.1 refs
      reverse := refs.foldl (fun rev ref => reverseAdd rev ref kf.1) g.reverse })
    ⟨[], []⟩

/-- `self.forward.get(k, ())`. -/
def fwdOf (g : DepGraph) (k : String) : List String := (g.forward.lookup k).getD []

/-- `self.reverse.get(k, ())`. -/
def revOf (g : DepGraph) (k : String) : List String := (g.reverse.lookup k).getD []

/-- BFS while-loop of `affected`: pop `(cell, depth)`, skip past `MAX_DEPTH`,
otherwise add unseen reverse-dependents at `depth + 1`.  Structural fuel: one
unit per dequeue; every enqueue accompanies a new member of the affected set,
which is bounded by the number of formulas, so the caller's
`#formulas + 1` units always suffice. -/
def bfsLoop (g : DepGraph) : Nat → List (String × Nat) → List String → List String
  | 0, _, aff => aff
  | _ + 1, [], aff => aff
  | fuel + 1, (cell, depth) :: queue, aff =>
      if MAX_DEPTH ≤ depth then bfsLoop g fuel queue aff
      else
        let st := (revOf g cell).foldl
          (fun (p : List String × List (String × Nat)) dep =>
            if dep ∈ p.1 then p else (p.1 ++ [dep], p.2 ++ [(dep, depth + 1)]))
          (aff, queue)
        bfsLoop g fuel st.2 st.1

/-- `in_degree[k] += 1` (dict update; `k` is always present). -/
def indegIncr (indeg : List (String × Int)) (k : String) : List (String × Int) :=
  indeg.map (fun kv => if kv.1 = k then (kv.1, kv.2 + 1) else kv)

/-- `adj[ref].append(k)` (dict update; `ref` is always present). -/
def adjAppend (adj : List (String × List String)) (ref k : String) :
    List (String × List String) :=
  adj.map (fun kv => if kv.1 = ref then (kv.1, kv.2 ++ [k]) else kv)

/-- Build `in_degree` and `adj` over the subset: all zeros / empty, then
`for k in keys: for ref in forward.get(k, ()): if ref in keys:
adj[ref].append(k); in_degree[k] += 1`. -/
def buildIndegAdj (keys : List String) (fwd : String → List String) :
    List (String × Int) × List (String × List String) :=
  keys.foldl (fun st k =>
    (fwd k).foldl (fun st ref =>
      if ref ∈ keys then (indegIncr st.1 k, adjAppend st.2 ref k) else st) st)
    (keys.map fun k => (k, (0 : Int)), keys.map fun k => (k, ([] : List String)))

/-- `in_degree[neighbor] -= 1` (dict update). -/
def decKey (indeg : List (String × Int)) (k : String) : List (String × Int) :=
  indeg.map (fun kv => if kv.1 = k then (kv.1, kv.2 - 1) else kv)

/-- Process the dependents of a popped node: decrement each one's in-degree
and enqueue it when the in-degree becomes exactly zero. -/
def decNeighbors (neighbors : List String) (indeg : List (String × Int))
    (queue : List String) : List (String × Int) × List String :=
  neighbors.foldl (fun st nb =>
    let indeg' := decKey st.1 nb
    if indeg'.lookup nb = some 0 then (indeg', st.2 ++ [nb]) else (indeg', st.2))
    (indeg, queue)

/-- Kahn while-loop.  Structural fuel: each iteration pops one node, a node
is enqueued at most once (its in-degree passes through zero at most once), so
the caller's `2·#keys + 2` units always suffice. -/
def kahnLoop (adj : List (String × List String)) :
    Nat → List String → List (String × Int) → List String → List String
  | 0, _, _, result => result
  | _ + 1, [], _, result => result
  | fuel + 1, node :: queue, indeg, result =>
      let st := decNeighbors ((adj.lookup node).getD []) indeg queue
      kahnLoop adj fuel st.2 st.1 (result ++ [node])

/-- `DependencyGraph._topo_sort`: Kahn's algorithm on a subset of formula
keys; nodes never reaching in-degree zero are appended afterwards in subset
order. -/
def topoSort (g : DepGraph) (keys : List String) : List String :=
  if keys.isEmpty then []
  else
    let st := buildIndegAdj keys (fwdOf g)
    let queue := keys.filter (fun k => st.1.lookup k = some 0)
    let result := kahnLoop st.2 (2 * keys.length + 2) queue st.1 []
    result ++ keys.filter (fun k => ¬ k ∈ result)

/-- `DependencyGraph.topo_sort_all`. -/
def DepGraph.topoSortAll (g : DepGraph) : List String :=
  topoSort g (g.forward.map Prod.fst)

/-- `DependencyGraph.affected`: BFS from the changed cells through reverse
edges, then topologically sort the collected set. -/
def DepGraph.affected (g : DepGraph) (changed : List String) : List String :=
  let st := changed.foldl (fun (p : List String × List (String × Nat)) cell =>
      (revOf g cell).foldl (fun p dep =>
        if dep ∈ p.1 then p else (p.1 ++ [dep], p.2 ++ [(dep, 1)])) p)
    ([], [])
  topoSort g (bfsLoop g (g.forward.length + 1) st.2 st.1)

-- ── Evaluation (lines 405-463) ───────────────────────────────────

/-- Computation mutating a state (the memoisation cache) in place and
possibly raising: the state updates made before a raise survive it. -/
def EvalM (σ α : Type) := σ → σ × Except PyErr α

instance : Monad (EvalM σ) where
  pure a := fun s => (s, .ok a)
  bind m f := fun s =>
    match m s with
    | (s', .ok a) => f a s'
    | (s', .error e) => (s', .error e)

/-- `raise e`. -/
def EvalM.throw (e : PyErr) : EvalM σ α := fun s => (s, .error e)

/-- Lift a pure fallible computation. -/
def EvalM.ofExcept : Except PyErr α → EvalM σ α
  | .ok a => pure a
  | .error e => .throw e

/-- `re.sub` with an effectful replacement callback, matches processed left
to right, a raise propagating out of the substitution. -/
def subPiecesM (repl : α → EvalM σ (List Char)) :
    List (Sum Char α) → EvalM σ (List Char)
  | [] => pure []
  | .inl c :: t => do
      let rest ← subPiecesM repl t
      pure (c :: rest)
  | .inr a :: t => do
      let r ← repl a
      let rest ← subPiecesM repl t
      pure (r ++ rest)

/-- `sum(resolve_cell(r, c) for r, c in cells)` (left to right, from `0`). -/
def sumCells (resolve : Int → Int → EvalM σ PyNum) : List (Int × Int) → PyNum → EvalM σ PyNum
  | [], acc => pure acc
  | rc :: t, acc => do
      let v ← resolve rc.1 rc.2
      sumCells resolve t (acc + v)

/-- `[resolve_cell(r, c) for r, c in cells]`. -/
def mapCells (resolve : Int → Int → EvalM σ PyNum) : List (Int × Int) → EvalM σ (List PyNum)
  | [] => pure []
  | rc :: t => do
      let v ← resolve rc.1 rc.2
      let rest ← mapCells resolve t
      pure (v :: rest)

/-- `_bounds_check(r, c, ref_text)`: `num_rows = 0` / `num_cols = 0` skip the
check (Python truthiness). -/
def boundsCheckImpl (numRows numCols : Nat) (rc : Int × Int) : EvalM σ Unit :=
  if numRows ≠ 0 ∧ (numRows : Int) ≤ rc.1 then EvalM.throw .invalidRef
  else if numCols ≠ 0 ∧ (numCols : Int) ≤ rc.2 then EvalM.throw .invalidRef
  else pure ()

/-- `_func_sub(m)`: expand and bounds-check the range, then compute the named
aggregate and splice its `str()` back into the text. -/
def funcSub (resolve : Int → Int → EvalM σ PyNum) (hasContent : Int → Int → Bool)
    (numRows numCols : Nat) (fm : FuncMatch) : EvalM σ (List Char) := do
  let cells ← EvalM.ofExcept (expand_range (fm.ref1 ++ ':' :: fm.ref2))
  cells.forM (boundsCheckImpl numRows numCols)
  match fm.name with
  | "SUM" => do
      let v ← sumCells resolve cells 0
      pure (pyStr v).data
  | "AVG" | "AVERAGE" => do
      let vals ← mapCells resolve cells
      match vals with
      | [] => pure ['0']
      | _ => pure (pyStr ((vals.foldl (· + ·) 0) / (⟨vals.length, 1⟩ : PyNum))).data
  | "COUNT" =>
      pure (toString (cells.countP (fun rc => hasContent rc.1 rc.2))).data
  | "MIN" => do
      let vals ← mapCells resolve cells
      match vals with
      | [] => pure ['0']
      | h :: t => pure (pyStr (t.foldl qmin2 h)).data
  | "MAX" => do
      let vals ← mapCells resolve cells
      match vals with
      | [] => pure ['0']
      | h :: t => pure (pyStr (t.foldl qmax2 h)).data
  | _ => EvalM.throw .syntaxErr

/-- `_ref_sub(m)`: parse and bounds-check a bare reference, then splice the
resolved value's `str()` back into the text. -/
def refSub (resolve : Int → Int → EvalM σ PyNum) (numRows numCols : Nat)
    (m : List Char × List Char) : EvalM σ (List Char) := do
  let rc ← EvalM.ofExcept (parse_cell_ref (m.1 ++ m.2))
  boundsCheckImpl numRows numCols rc
  let v ← resolve rc.1 rc.2
  pure (pyStr v).data

/-- `evaluate(formula, resolve_cell, has_content, num_rows=, num_cols=)`:
substitute function calls by their computed scalar (via the callbacks), then
bare references, then parse the remaining arithmetic. -/
def evaluate (formula : String) (resolve : Int → Int → EvalM σ PyNum)
    (hasContent : Int → Int → Bool) (numRows numCols : Nat) : EvalM σ PyNum :=
  let expr0 := stripPy (formula.data.dropWhile (· = '='))
  if expr0.isEmpty then EvalM.throw .syntaxErr
  else do
    let expr1 ← subPiecesM (funcSub resolve hasContent numRows numCols)
      (scanWith matchFuncAt expr0)
    if hasAlphaParen expr1 then EvalM.throw .syntaxErr
    else do
      let expr2 ← subPiecesM (refSub resolve numRows numCols)
        (scanWith matchRefAt expr1)
      EvalM.ofExcept (pyParse expr2)

-- ── Sheet recalculation (lines 468-571) ──────────────────────────

/-- The value grid: rows of display strings (possibly ragged). -/
abbrev Grid := List (List String)

/-- The per-pass memoisation cache `cache : dict[str, float]`. -/
abbrev Cache := List (String × PyNum)

/-- The per-pass error record `errors : dict[str, str]`. -/
abbrev Errors := List (String × String)

/-- `float(v)` on a free-form cell string: optional whitespace and sign,
digits with an optional dot, optional exponent part; `none` models
`ValueError`.  (`inf`/`nan` literals and digit-group underscores are treated
as unparseable: the model's values are rationals, and no claim involves
them.) -/
def pyFloatStr (s : String) : Option PyNum :=
  let l := stripPy s.data
  let sl : Int × List Char :=
    match l with
    | '-' :: t => (-1, t)
    | '+' :: t => (1, t)
    | _ => (1, l)
  let ip := sl.2.takeWhile isDigitCh
  let l1 := sl.2.drop ip.length
  let fl : List Char × List Char :=
    match l1 with
    | '.' :: t => (t.takeWhile isDigitCh, t.dropWhile isDigitCh)
    | _ => ([], l1)
  if ip.isEmpty ∧ fl.1.isEmpty then none
  else
    let mant : PyNum :=
      ⟨sl.1 * (digitsVal ip * 10 ^ fl.1.length + digitsVal fl.1), 10 ^ fl.1.length⟩
    match fl.2 with
    | [] => some mant
    | e :: t =>
        if e = 'e' ∨ e = 'E' then
          let st : Bool × List Char :=
            match t with
            | '-' :: u => (true, u)
            | '+' :: u => (false, u)
            | _ => (false, t)
          if st.2 ≠ [] ∧ st.2.all isDigitCh then
            if st.1 then some (mant / (⟨10 ^ digitsVal st.2, 1⟩ : PyNum))
            else some (mant * (⟨10 ^ digitsVal st.2, 1⟩ : PyNum))
          else none
        else none

/-- `v.startswith('#')`. -/
def startsHash (v : String) : Bool :=
  match v.data with
  | '#' :: _ => true
  | _ => false

/-- `rows[r][c]` (both indices known in bounds at use sites). -/
def getCell (rows : Grid) (r c : Int) : String :=
  (rows.getD r.toNat []).getD c.toNat ""

/-- In-place `rows[r][c] = v`. -/
def gridWrite (rows : Grid) (r c : Int) (v : String) : Grid :=
  rows.set r.toNat ((rows.getD r.toNat []).set c.toNat v)

/-- `0 <= r < num_rows and 0 <= c < len(rows[r])`. -/
def inBoundsB (rows : Grid) (r c : Int) : Bool :=
  decide (0 ≤ r) && decide (r < (rows.length : Int)) &&
    decide (0 ≤ c) && decide (c < ((rows.getD r.toNat []).length : Int))

/-- `_has_content`: a formula cell always has content; otherwise an in-bounds
cell whose stripped value is nonempty. -/
def hasContentImpl (formulas : List (String × String)) (rows : Grid)
    (r c : Int) : Bool :=
  if (formulas.lookup (keyOf r c)).isSome then true
  else inBoundsB rows r c && !(stripPy (getCell rows r c).data).isEmpty

/-- `_resolve(r, c, visiting, depth)`: the memoising resolver.  Structural
fuel `MAX_DEPTH + 1 - depth` replaces the increasing `depth` counter: fuel 0
is exactly `depth > MAX_DEPTH`, which raises `FormulaError(code="#ERROR")`. -/
def resolveCell (formulas : List (String × String)) (evalSet : List String)
    (numRows numCols : Nat) (rows : Grid) (errors : Errors) :
    Nat → Int → Int → List String → EvalM Cache PyNum
  | 0, _, _, _ => EvalM.throw (.formulaErr "#ERROR")
  | fuel + 1, r, c, visiting => fun cache =>
      let key := keyOf r c
      match errors.lookup key with
      | some code => (cache, .error (.formulaErr code))
      | none =>
        match cache.lookup key with
        | some v => (cache, .ok v)
        | none =>
          if key ∈ visiting then (cache, .error .cycleErr)
          else if (formulas.lookup key).isSome ∧ key ∈ evalSet then
            match evaluate ((formulas.lookup key).getD "")
                (fun rr cc => resolveCell formulas evalSet numRows numCols rows errors
                  fuel rr cc (key :: visiting))
                (hasContentImpl formulas rows) numRows numCols cache with
            | (cache', .ok val) => (alistUpsert cache' key val, .ok val)
            | (cache', .error e) => (cache', .error e)
          else if (formulas.lookup key).isSome then
            if inBoundsB rows r c then
              let v := getCell rows r c
              if v ≠ "" ∧ startsHash v then (cache, .error (.formulaErr v))
              else if v ≠ "" then
                match pyFloatStr v with
                | some val => (alistUpsert cache key val, .ok val)
                | none => (cache, .ok 0)
              else (cache, .ok 0)
            else (cache, .ok 0)
          else
            if inBoundsB rows r c then
              let v := getCell rows r c
              if v ≠ "" then
                match pyFloatStr v with
                | some val => (cache, .ok val)
                | none => (cache, .ok 0)
              else (cache, .ok 0)
            else (cache, .ok 0)

/-- `r, c = map(int, key.split(','))` — a non-integer part or a wrong number
of parts raises `ValueError` (outside the per-cell `try`). -/
def parseKey (key : String) : Except PyErr (Int × Int) :=
  match (key.data.splitOn ',').mapM (fun part => pyInt (String.mk part)) with
  | .error e => .error e
  | .ok [r, c] => .ok (r, c)
  | .ok _ => .error .valueErr

/-- One iteration of the evaluation loop of `recalculate`: skip out-of-grid
keys before the `try`; inside it, a missing formula key (`KeyError`), a
validation verdict, or an evaluation outcome each write the cell and record
errors; `except FormulaError` writes `e.code` and the `except Exception`
catch-all writes `"#ERROR"` (see `errWrite`). -/
def recalcStep (formulas : List (String × String)) (numRows numCols : Nat)
    (evalSet : List String) (st : Grid × Cache × Errors) (key : String) :
    Except PyErr (Grid × Cache × Errors) := do
  let (r, c) ← parseKey key
  if inBoundsB st.1 r c then
    match formulas.lookup key with
    | none =>
        .ok (gridWrite st.1 r c "#ERROR", st.2.1, alistUpsert st.2.2 key "#ERROR")
    | some ftext =>
        match validate_formula ftext with
        | .error e =>
            .ok (gridWrite st.1 r c (errWrite e), st.2.1, alistUpsert st.2.2 key (errWrite e))
        | .ok (some code) =>
            .ok (gridWrite st.1 r c code, st.2.1, alistUpsert st.2.2 key code)
        | .ok none =>
            match resolveCell formulas evalSet numRows numCols st.1 st.2.2
                (MAX_DEPTH + 1) r c [] st.2.1 with
            | (cache', .ok val) =>
                .ok (gridWrite st.1 r c (format_result val), cache', st.2.2)
            | (cache', .error e) =>
                .ok (gridWrite st.1 r c (errWrite e), cache', alistUpsert st.2.2 key (errWrite e))
  else .ok st

/-- `for key in eval_order: ...`. -/
def recalcLoop (formulas : List (String × String)) (numRows numCols : Nat)
    (evalSet : List String) :
    Grid × Cache × Errors → List String → Except PyErr (Grid × Cache × Errors)
  | st, [] => .ok st
  | st, k :: ks => do
      let st' ← recalcStep formulas numRows numCols evalSet st k
      recalcLoop formulas numRows numCols evalSet st' ks

/-- The evaluation order `recalculate` uses: `affected(changed)` for a
targeted pass, `topo_sort_all()` for a full pass. -/
def evalOrderOf (formulas : List (String × String))
    (changed : Option (List String)) : List String :=
  let g := buildGraph formulas
  match changed with
  | some s => g.affected s
  | none => g.topoSortAll

/-- `recalculate(rows, formulas, changed_cells)`: evaluate formulas and write
computed values (returning the mutated grid; Python mutates `rows` in
place). -/
def recalculate (rows : Grid) (formulas : List (String × String))
    (changed : Option (List String)) : Except PyErr Grid :=
  if formulas.isEmpty then .ok rows
  else if changed = some [] then .ok rows
  else
    let numRows := rows.length
    let numCols := (rows.map List.length).foldr max 0
    let evalOrder := evalOrderOf formulas changed
    if evalOrder.isEmpty then .ok rows
    else
      match recalcLoop formulas numRows numCols evalOrder (rows, [], []) evalOrder with
      | .ok st => .ok st.1
      | .error e => .error e

-- ── Notions used by the claim statements ─────────────────────────

/-- Does `a` transitively read `b` through formulas inside the subset `S`
(following `forward` edges restricted to `S`, at most `fuel` hops)? -/
def reachesB (g : DepGraph) (S : List String) : Nat → String → String → Bool
  | 0, _, _ => false
  | fuel + 1, a, b =>
      ((fwdOf g a).filter (· ∈ S)).any fun j => j = b || reachesB g S fuel j b

/-- `k` is part of a dependency cycle within the subset `S`: some chain of
reads inside `S` leads from `k` back to `k` (chains longer than `|S| + 1`
necessarily repeat a vertex, so the fuel is exhaustive). -/
def inCycle (g : DepGraph) (S : List String) (k : String) : Bool :=
  reachesB g S (S.length + 1) k k

/-- `a` occurs before `b` in `l` (both present). -/
def beforeIn (l : List String) (a b : String) : Prop :=
  a ∈ l ∧ b ∈ l ∧ l.indexOf a < l.indexOf b

instance (l : List String) (a b : String) : Decidable (beforeIn l a b) := by
  unfold beforeIn; infer_instance

/-- The closed taxonomy of cell error codes. -/
def errorCodes : List String := ["#ERROR", "#DIV/0", "#REF", "#CYCLE"]

-- ── Claim theorems ───────────────────────────────────────────────

/-- **C1** — End-to-end incremental recalculation: with `A1="1"`, `A2="2"`,
`A3="3"` and the single formula `B1="=SUM(A1:A3)"` (formula key `"0,1"`), a
full `recalculate` writes `"6"` into B1's grid slot; after changing the grid
value at key `"1,0"` to `"5"`, recalculating with `changed_cells={"1,0"}`
writes `"9"` into B1's slot; and the affected set computed for `{"1,0"}` is
exactly `["0,1"]`. -/
theorem c1_incremental_recalculation :
    recalculate [["1", ""], ["2"], ["3"]] [("0,1", "=SUM(A1:A3)")] none =
      .ok [["1", "6"], ["2"], ["3"]] ∧
    recalculate [["1", "6"], ["5"], ["3"]] [("0,1", "=SUM(A1:A3)")] (some ["1,0"]) =
      .ok [["1", "9"], ["5"], ["3"]] ∧
    (buildGraph [("0,1", "=SUM(A1:A3)")]).affected ["1,0"] = ["0,1"] := by
  exact ⟨by decide, by decide, by decide⟩

/-- **C3** — Mutual references yield `#CYCLE` in both cells: for
`A1="=B1"`, `B1="=A1"` over a one-row, two-column grid, both a full pass and
a targeted pass (whose affected set contains both cells) write `"#CYCLE"`
into slots `(0,0)` and `(0,1)`. -/
theorem c3_cycle_yields_cycle_codes :
    recalculate [["", ""]] [("0,0", "=B1"), ("0,1", "=A1")] none =
      .ok [["#CYCLE", "#CYCLE"]] ∧
    recalculate [["", ""]] [("0,0", "=B1"), ("0,1", "=A1")] (some ["0,0"]) =
      .ok [["#CYCLE", "#CYCLE"]] ∧
    evalOrderOf [("0,0", "=B1"), ("0,1", "=A1")] (some ["0,0"]) = ["0,1", "0,0"] := by
  exact ⟨by decide, by decide, by decide⟩

/-- **C5** (counterexample) — Contrary to the claim, `validate_formula` does
*not* return `"#REF"` for a malformed bare reference or function endpoint:
the `re.sub` callbacks return `None`, which CPython treats as deleting the
match, so `"=A0"` reduces to the empty expression and the trial parse yields
`"#ERROR"` instead.  The claimed totality also fails: for `"=."` the trial
parse calls `float(".")`, whose `ValueError` no `except` clause catches. -/
theorem c5_counterexample :
    validate_formula "=A0" = .ok (some "#ERROR") ∧
    ¬ validate_formula "=A0" = .ok (some "#REF") ∧
    validate_formula "=." = .error .valueErr := by
  exact ⟨by decide, by decide, by decide⟩

/-- **C7** — Division by zero is an evaluation-time error, not a validation
one: `"=A1/B1"` validates cleanly, and with `A1="10"`, `B1="0"` the formula's
grid slot receives the string `"#DIV/0"`. -/
theorem c7_div_zero_at_evaluation :
    validate_formula "=A1/B1" = .ok none ∧
    recalculate [["10", "0", ""]] [("0,2", "=A1/B1")] none =
      .ok [["10", "0", "#DIV/0"]] := by
  exact ⟨by decide, by decide⟩

/-- **C8** — Standard precedence and left-to-right associativity with
parentheses and unary sign: `"=1+2*3"` evaluates to 7 and is displayed
`"7"`; `"=(1+2)*3"` evaluates to 9 and is displayed `"9"`. -/
theorem c8_parser_precedence :
    pyParse "1+2*3".data = .ok ⟨7, 1⟩ ∧ format_result ⟨7, 1⟩ = "7" ∧
    pyParse "(1+2)*3".data = .ok ⟨9, 1⟩ ∧ format_result ⟨9, 1⟩ = "9" ∧
    recalculate [[""]] [("0,0", "=1+2*3")] none = .ok [["7"]] ∧
    recalculate [[""]] [("0,0", "=(1+2)*3")] none = .ok [["9"]] := by
  exact ⟨by decide, by decide, by decide, by decide, by decide, by decide⟩

/-- **C2 (counterexample)** — An evaluation failure is *not* always one of
the four error-code strings: a targeted pass in which `"0,1" = "=A1"` reads
the not-recalculated formula cell `"0,0"` whose grid slot holds `"#foo"`
re-raises `FormulaError("#foo")`, and `recalculate` writes the inherited
string `"#foo"` — outside the four-code taxonomy — into slot `(0,1)`. -/
theorem c2_counterexample :
    recalculate [["#foo", ""]] [("0,0", "=F6"), ("0,1", "=A1")] (some ["0,0"]) =
      .ok [["#foo", "#foo"]] ∧
    evalOrderOf [("0,0", "=F6"), ("0,1", "=A1")] (some ["0,0"]) = ["0,1"] ∧
    "#foo" ∉ errorCodes := by
  exact ⟨by decide, by decide, by decide⟩

/-- **C4 (counterexample)** — A key that is not part of any dependency cycle
within `S` can still appear *before* a key its formula reads: with
`"0,0"="=B1"`, `"0,1"="=C1"`, `"0,2"="=B1"` (so `"0,1"` and `"0,2"` form a
cycle and `"0,0"` merely reads into it), no in-degree ever reaches zero, the
main Kahn loop orders nothing, and the whole subset is appended in subset
order — placing `"0,0"` (cycle-free) before `"0,1"`, which it reads. -/
theorem c4_counterexample :
    topoSort (buildGraph [("0,0", "=B1"), ("0,1", "=C1"), ("0,2", "=B1")])
        ["0,0", "0,1", "0,2"] = ["0,0", "0,1", "0,2"] ∧
    inCycle (buildGraph [("0,0", "=B1"), ("0,1", "=C1"), ("0,2", "=B1")])
        ["0,0", "0,1", "0,2"] "0,0" = false ∧
    "0,1" ∈ fwdOf (buildGraph [("0,0", "=B1"), ("0,1", "=C1"), ("0,2", "=B1")]) "0,0" ∧
    beforeIn (topoSort (buildGraph [("0,0", "=B1"), ("0,1", "=C1"), ("0,2", "=B1")])
        ["0,0", "0,1", "0,2"]) "0,0" "0,1" := by
  exact ⟨by decide, by decide, by decide, by decide⟩

-- ── Lemmas about the abortable substitution (for C6) ─────────────

@[simp] theorem except_error_bind {ε α β : Type} (e : ε) (f : α → Except ε β) :
    (Except.error e >>= f) = (Except.error e : Except ε β) := rfl

@[simp] theorem except_ok_bind {ε α β : Type} (a : α) (f : α → Except ε β) :
    ((Except.ok a : Except ε α) >>= f) = f a := rfl

theorem subPiecesE_error_of_mem {α : Type} (repl : α → Except PyErr (List Char))
    (ps : List (Sum Char α)) (a : α) (ha : Sum.inr a ∈ ps)
    (hb : ∃ eb, repl a = .error eb) : ∃ e, subPiecesE repl ps = .error e := by
  induction ps with
  | nil => simp at ha
  | cons p t ih =>
    rcases List.mem_cons.mp ha with h | h
    · subst h
      obtain ⟨eb, hbe⟩ := hb
      refine ⟨eb, ?_⟩
      simp [subPiecesE, hbe]
    · match p with
      | .inl c =>
        obtain ⟨e, he⟩ := ih h
        exact ⟨e, by simp [subPiecesE, he]⟩
      | .inr b =>
        obtain ⟨e, he⟩ := ih h
        match hrb : repl b with
        | .error eb => exact ⟨eb, by simp [subPiecesE, hrb]⟩
        | .ok rb => exact ⟨e, by simp [subPiecesE, hrb, he]⟩

theorem shiftReplace_error_inv (rowD colD : Int) (m : List Char × List Char)
    (e : PyErr) (h : shiftReplace rowD colD m = .error e) : e = .invalidRef := by
  simp only [shiftReplace] at h
  split at h
  · cases h; rfl
  · cases h

theorem subPiecesE_shift_error_classify (rowD colD : Int)
    (ps : List (Sum Char (List Char × List Char))) :
    ∀ e, subPiecesE (shiftReplace rowD colD) ps = .error e → e = .invalidRef := by
  induction ps with
  | nil => intro e h; simp [subPiecesE] at h
  | cons p t ih =>
    intro e h
    match p with
    | .inl c =>
      cases ht : subPiecesE (shiftReplace rowD colD) t with
      | ok rest => simp [subPiecesE, ht] at h
      | error e' =>
        simp [subPiecesE, ht] at h
        exact h ▸ ih e' ht
    | .inr m =>
      cases hm : shiftReplace rowD colD m with
      | error e' =>
        simp [subPiecesE, hm] at h
        exact h ▸ shiftReplace_error_inv rowD colD m e' hm
      | ok r =>
        cases ht : subPiecesE (shiftReplace rowD colD) t with
        | ok rest => simp [subPiecesE, hm, ht] at h
        | error e' =>
          simp [subPiecesE, hm, ht] at h
          exact h ▸ ih e' ht

/-- **C6** — `shift_refs` is all-or-nothing and preserves the leading
character: `shift_refs("=A1+B2", 1, 1) = "=B2+C3"`; whenever some reference
matched in `formula[1:]` would shift to a negative row or column the original
string is returned unchanged; and for every non-empty formula the call
returns normally with the first character (`formula[0]`, in particular a
leading `=`) passed through verbatim. -/
theorem shift_refs_cons (c : Char) (rest : List Char) (rowD colD : Int) :
    shift_refs ⟨c :: rest⟩ rowD colD =
      match subPiecesE (shiftReplace rowD colD) (scanWith matchRefAt rest) with
      | .ok s => .ok (String.mk (c :: s))
      | .error .invalidRef => .ok ⟨c :: rest⟩
      | .error e => .error e := rfl

theorem c6_shift_refs_all_or_nothing :
    shift_refs "=A1+B2" 1 1 = .ok "=B2+C3" ∧
    (∀ (f : String) (rowD colD : Int), f ≠ "" →
      (∃ m : List Char × List Char, Sum.inr m ∈ scanWith matchRefAt f.data.tail ∧
        (col_to_index m.1 + colD < 0 ∨ (digitsVal m.2 : Int) - 1 + rowD < 0)) →
      shift_refs f rowD colD = .ok f) ∧
    (∀ (f : String) (rowD colD : Int), f ≠ "" →
      ∃ s, shift_refs f rowD colD = .ok s ∧ s.data.head? = f.data.head?) := by
  refine ⟨by decide, ?_, ?_⟩
  · intro f rowD colD hne hex
    obtain ⟨m, hmem, hneg⟩ := hex
    obtain ⟨d⟩ := f
    rcases d with _ | ⟨c, rest⟩
    · exact absurd rfl hne
    · have hrepl : shiftReplace rowD colD m = .error .invalidRef := by
        simp only [shiftReplace]
        rw [if_pos hneg]
      obtain ⟨e, he⟩ :=
        subPiecesE_error_of_mem (shiftReplace rowD colD) (scanWith matchRefAt rest) m
          hmem ⟨_, hrepl⟩
      have hinv := subPiecesE_shift_error_classify rowD colD _ e he
      subst hinv
      rw [shift_refs_cons, he]
  · intro f rowD colD hne
    obtain ⟨d⟩ := f
    rcases d with _ | ⟨c, rest⟩
    · exact absurd rfl hne
    · cases hs : subPiecesE (shiftReplace rowD colD) (scanWith matchRefAt rest) with
      | ok s =>
        refine ⟨String.mk (c :: s), ?_, rfl⟩
        rw [shift_refs_cons, hs]
      | error e =>
        have hinv := subPiecesE_shift_error_classify rowD colD _ e hs
        subst hinv
        refine ⟨⟨c :: rest⟩, ?_, rfl⟩
        rw [shift_refs_cons, hs]

/-- Witness for C6: the abort case at `shift_refs("=A1", -5, 0)` (the shifted
row `0 - 5` is negative) and the success case, both discharged through the
theorem. -/
theorem c6_witness :
    shift_refs "=A1" (-5) 0 = .ok "=A1" ∧ shift_refs "=A1+B2" 1 1 = .ok "=B2+C3" :=
  ⟨c6_shift_refs_all_or_nothing.2.1 "=A1" (-5) 0 (by decide)
      ⟨(['A'], ['1']), List.Mem.head _, by decide⟩,
    c6_shift_refs_all_or_nothing.1⟩

-- ── Column-letter codec lemmas (for C9) ──────────────────────────

theorem charToNat_ofNat (m : Nat) (h : m < 55296) : (Char.ofNat m).toNat = m := by
  have hv : m.isValidChar := Or.inl h
  rw [Char.ofNat, dif_pos hv]
  rfl

theorem toUpper_id (c : Char) (h : c.toNat ≤ 90) : c.toUpper = c := by
  simp only [Char.toUpper]
  rw [if_neg (by omega)]

theorem index_to_col_aux_step (fuel idx : Nat) (acc : List Char)
    (hf : 0 < fuel) (hi : 0 < idx) :
    index_to_col_aux fuel idx acc =
      index_to_col_aux (fuel - 1) ((idx - 1) / 26)
        (Char.ofNat ((idx - 1) % 26 + 65) :: acc) := by
  cases fuel with
  | zero => omega
  | succ f =>
    simp only [index_to_col_aux]
    rw [if_pos hi]
    rfl

theorem index_to_col_aux_zero (fuel : Nat) (acc : List Char) :
    index_to_col_aux fuel 0 acc = acc := by
  cases fuel <;> simp [index_to_col_aux]

/-- **C9** — Column-letter round trip: `col_to_index` and `index_to_col` are
mutually inverse between 1-to-3-character uppercase `A`–`Z` strings and the
integers `0..18277`. -/
theorem c9_column_roundtrip :
    (∀ L : List Char, 1 ≤ L.length → L.length ≤ 3 →
      (∀ c ∈ L, 65 ≤ c.toNat ∧ c.toNat ≤ 90) →
      0 ≤ col_to_index L ∧ col_to_index L ≤ 18277 ∧
        index_to_col (col_to_index L).toNat = L) ∧
    (∀ n : Nat, n ≤ 18277 →
      col_to_index (index_to_col n) = n ∧
      1 ≤ (index_to_col n).length ∧ (index_to_col n).length ≤ 3 ∧
        ∀ c ∈ index_to_col n, 65 ≤ c.toNat ∧ c.toNat ≤ 90) := by
  constructor
  · intro L h1 h3 hup
    match L with
    | [a] =>
      obtain ⟨ha1, ha2⟩ := hup a (by simp)
      have hcol : col_to_index [a] = (a.toNat : Int) - 65 := by
        simp [col_to_index, List.foldl, toUpper_id a ha2]
      refine ⟨by omega, by omega, ?_⟩
      have htn : (col_to_index [a]).toNat = a.toNat - 65 := by omega
      rw [htn, index_to_col]
      rw [index_to_col_aux_step _ _ _ (by omega) (by omega)]
      have e1 : (a.toNat - 65 + 1 - 1) % 26 + 65 = a.toNat := by omega
      have e2 : (a.toNat - 65 + 1 - 1) / 26 = 0 := by omega
      rw [e1, e2, index_to_col_aux_zero, Char.ofNat_toNat]
    | [a, b] =>
      obtain ⟨ha1, ha2⟩ := hup a (by simp)
      obtain ⟨hb1, hb2⟩ := hup b (by simp)
      have hcol : col_to_index [a, b] =
          26 * ((a.toNat : Int) - 64) + ((b.toNat : Int) - 64) - 1 := by
        simp [col_to_index, List.foldl, toUpper_id a ha2, toUpper_id b hb2]
        ring
      refine ⟨by omega, by omega, ?_⟩
      have htn : (col_to_index [a, b]).toNat =
          26 * (a.toNat - 64) + (b.toNat - 64) - 1 := by omega
      rw [htn, index_to_col]
      rw [index_to_col_aux_step _ _ _ (by omega) (by omega)]
      have e1 : (26 * (a.toNat - 64) + (b.toNat - 64) - 1 + 1 - 1) % 26 + 65 = b.toNat := by
        omega
      have e2 : (26 * (a.toNat - 64) + (b.toNat - 64) - 1 + 1 - 1) / 26 = a.toNat - 64 := by
        omega
      rw [e1, e2]
      rw [index_to_col_aux_step _ _ _ (by omega) (by omega)]
      have e3 : (a.toNat - 64 - 1) % 26 + 65 = a.toNat := by omega
      have e4 : (a.toNat - 64 - 1) / 26 = 0 := by omega
      rw [e3, e4, index_to_col_aux_zero, Char.ofNat_toNat, Char.ofNat_toNat]
    | [a, b, c] =>
      obtain ⟨ha1, ha2⟩ := hup a (by simp)
      obtain ⟨hb1, hb2⟩ := hup b (by simp)
      obtain ⟨hc1, hc2⟩ := hup c (by simp)
      have hcol : col_to_index [a, b, c] =
          676 * ((a.toNat : Int) - 64) + 26 * ((b.toNat : Int) - 64) +
            ((c.toNat : Int) - 64) - 1 := by
        simp [col_to_index, List.foldl, toUpper_id a ha2, toUpper_id b hb2,
          toUpper_id c hc2]
        ring
      refine ⟨by omega, by omega, ?_⟩
      have htn : (col_to_index [a, b, c]).toNat =
          676 * (a.toNat - 64) + 26 * (b.toNat - 64) + (c.toNat - 64) - 1 := by omega
      rw [htn, index_to_col]
      rw [index_to_col_aux_step _ _ _ (by omega) (by omega)]
      have e1 : (676 * (a.toNat - 64) + 26 * (b.toNat - 64) + (c.toNat - 64) - 1 + 1 - 1)
          % 26 + 65 = c.toNat := by omega
      have e2 : (676 * (a.toNat - 64) + 26 * (b.toNat - 64) + (c.toNat - 64) - 1 + 1 - 1)
          / 26 = 26 * (a.toNat - 64) + (b.toNat - 64) := by omega
      rw [e1, e2]
      rw [index_to_col_aux_step _ _ _ (by omega) (by omega)]
      have e3 : (26 * (a.toNat - 64) + (b.toNat - 64) - 1) % 26 + 65 = b.toNat := by omega
      have e4 : (26 * (a.toNat - 64) + (b.toNat - 64) - 1) / 26 = a.toNat - 64 := by omega
      rw [e3, e4]
      rw [index_to_col_aux_step _ _ _ (by omega) (by omega)]
      have e5 : (a.toNat - 64 - 1) % 26 + 65 = a.toNat := by omega
      have e6 : (a.toNat - 64 - 1) / 26 = 0 := by omega
      rw [e5, e6, index_to_col_aux_zero, Char.ofNat_toNat, Char.ofNat_toNat,
        Char.ofNat_toNat]
  · intro n hn
    by_cases h1 : n ≤ 25
    · have hL : index_to_col n = [Char.ofNat (n + 65)] := by
        rw [index_to_col, index_to_col_aux_step _ _ _ (by omega) (by omega)]
        have e1 : (n + 1 - 1) % 26 + 65 = n + 65 := by omega
        have e2 : (n + 1 - 1) / 26 = 0 := by omega
        rw [e1, e2, index_to_col_aux_zero]
      have ht : (Char.ofNat (n + 65)).toNat = n + 65 := charToNat_ofNat _ (by omega)
      rw [hL]
      refine ⟨?_, by simp, by simp, ?_⟩
      · simp [col_to_index, List.foldl, toUpper_id _ (by omega : (Char.ofNat (n + 65)).toNat ≤ 90), ht]
      · intro ch hch
        simp at hch
        subst hch
        omega
    · by_cases h2 : n ≤ 701
      · have hq : n / 26 - 1 ≤ 25 := by omega
        have hL : index_to_col n =
            [Char.ofNat (n / 26 + 64), Char.ofNat (n % 26 + 65)] := by
          rw [index_to_col, index_to_col_aux_step _ _ _ (by omega) (by omega)]
          have e1 : (n + 1 - 1) % 26 + 65 = n % 26 + 65 := by omega
          have e2 : (n + 1 - 1) / 26 = n / 26 := by omega
          rw [e1, e2]
          rw [index_to_col_aux_step _ _ _ (by omega) (by omega)]
          have e3 : (n / 26 - 1) % 26 + 65 = n / 26 + 64 := by omega
          have e4 : (n / 26 - 1) / 26 = 0 := by omega
          rw [e3, e4, index_to_col_aux_zero]
        have ht1 : (Char.ofNat (n / 26 + 64)).toNat = n / 26 + 64 :=
          charToNat_ofNat _ (by omega)
        have ht2 : (Char.ofNat (n % 26 + 65)).toNat = n % 26 + 65 :=
          charToNat_ofNat _ (by omega)
        rw [hL]
        refine ⟨?_, by simp, by simp, ?_⟩
        · simp [col_to_index, List.foldl, toUpper_id _ (by omega : (Char.ofNat (n / 26 + 64)).toNat ≤ 90),
            toUpper_id _ (by omega : (Char.ofNat (n % 26 + 65)).toNat ≤ 90), ht1, ht2]
          omega
        · intro ch hch
          simp at hch
          rcases hch with hch | hch <;> subst hch <;> omega
      · have hq1 : 27 ≤ n / 26 := by omega
        have hq1' : n / 26 ≤ 703 := by omega
        have hq2 : 1 ≤ (n / 26 - 1) / 26 := by omega
        have hq2' : (n / 26 - 1) / 26 ≤ 26 := by omega
        have hL : index_to_col n =
            [Char.ofNat ((n / 26 - 1) / 26 + 64),
             Char.ofNat ((n / 26 - 1) % 26 + 65),
             Char.ofNat (n % 26 + 65)] := by
          rw [index_to_col, index_to_col_aux_step _ _ _ (by omega) (by omega)]
          have e1 : (n + 1 - 1) % 26 + 65 = n % 26 + 65 := by omega
          have e2 : (n + 1 - 1) / 26 = n / 26 := by omega
          rw [e1, e2]
          rw [index_to_col_aux_step _ _ _ (by omega) (by omega)]
          rw [index_to_col_aux_step _ _ _ (by omega) (by omega)]
          have e3 : ((n / 26 - 1) / 26 - 1) % 26 + 65 = (n / 26 - 1) / 26 + 64 := by
            omega
          have e4 : ((n / 26 - 1) / 26 - 1) / 26 = 0 := by omega
          rw [e3, e4, index_to_col_aux_zero]
        have ht1 : (Char.ofNat ((n / 26 - 1) / 26 + 64)).toNat = (n / 26 - 1) / 26 + 64 :=
          charToNat_ofNat _ (by omega)
        have ht2 : (Char.ofNat ((n / 26 - 1) % 26 + 65)).toNat = (n / 26 - 1) % 26 + 65 :=
          charToNat_ofNat _ (by omega)
        have ht3 : (Char.ofNat (n % 26 + 65)).toNat = n % 26 + 65 :=
          charToNat_ofNat _ (by omega)
        rw [hL]
        refine ⟨?_, by simp, by simp, ?_⟩
        · simp [col_to_index, List.foldl,
            toUpper_id _ (by omega : (Char.ofNat ((n / 26 - 1) / 26 + 64)).toNat ≤ 90),
            toUpper_id _ (by omega : (Char.ofNat ((n / 26 - 1) % 26 + 65)).toNat ≤ 90),
            toUpper_id _ (by omega : (Char.ofNat (n % 26 + 65)).toNat ≤ 90),
            ht1, ht2, ht3]
          omega
        · intro ch hch
          simp at hch
          rcases hch with hch | hch | hch <;> subst hch <;> omega

/-- Witness for C9: the round trip evaluated at `"CF"` (index 83) and at 83. -/
theorem c9_witness :
    index_to_col (col_to_index ['C', 'F']).toNat = ['C', 'F'] ∧
    col_to_index (index_to_col 83) = 83 :=
  ⟨(c9_column_roundtrip.1 ['C', 'F'] (by decide) (by decide) (by decide)).2.2,
    (c9_column_roundtrip.2 83 (by decide)).1⟩

-- ── Grid frame lemmas (for C10 and C2) ───────────────────────────

theorem getD_set {α : Type} (l : List α) (i j : Nat) (v d : α) :
    (l.set i v).getD j d = if i = j ∧ j < l.length then v else l.getD j d := by
  induction l generalizing i j with
  | nil => simp
  | cons a t ih =>
    cases i with
    | zero =>
      cases j with
      | zero => simp
      | succ j' => simp [List.getD]
    | succ i' =>
      cases j with
      | zero => simp [List.getD]
      | succ j' =>
        simp only [List.set, List.getD_cons_succ, List.length_cons]
        rw [ih]
        simp only [Nat.succ_lt_succ_iff]
        congr 1
        simp [Nat.succ_inj]

/-- Row count is unchanged by a cell write. -/
theorem gridWrite_length (rows : Grid) (r c : Int) (v : String) :
    (gridWrite rows r c v).length = rows.length := by
  simp [gridWrite]

/-- Row lengths are unchanged by a cell write. -/
theorem gridWrite_row_length (rows : Grid) (r c : Int) (v : String) (i : Nat) :
    ((gridWrite rows r c v).getD i []).length = (rows.getD i []).length := by
  unfold gridWrite
  rw [getD_set]
  split
  · next h => rw [← h.1]; simp
  · rfl

/-- A cell write touches no other slot. -/
theorem gridWrite_cell_ne (rows : Grid) (r c : Int) (v : String) (i j : Nat)
    (h : ¬ (r.toNat = i ∧ c.toNat = j)) :
    ((gridWrite rows r c v).getD i []).getD j "" = (rows.getD i []).getD j "" := by
  unfold gridWrite
  rw [getD_set]
  split
  · next hcond =>
    obtain ⟨hr, _⟩ := hcond
    rw [getD_set]
    split
    · next hcond2 => exact absurd ⟨hr, hcond2.1⟩ h
    · rw [hr]
  · rfl

/-- Same row and column counts. -/
def shapeEq (g g' : Grid) : Prop :=
  g'.length = g.length ∧ ∀ i, (g'.getD i []).length = (g.getD i []).length

theorem shapeEq_refl (g : Grid) : shapeEq g g := ⟨rfl, fun _ => rfl⟩

theorem shapeEq_trans {g g' g'' : Grid} (h1 : shapeEq g g') (h2 : shapeEq g' g'') :
    shapeEq g g'' :=
  ⟨h2.1.trans h1.1, fun i => (h2.2 i).trans (h1.2 i)⟩

theorem inBoundsB_shapeEq {g g' : Grid} (h : shapeEq g g') (r c : Int) :
    inBoundsB g' r c = inBoundsB g r c := by
  unfold inBoundsB
  rw [h.1, h.2 r.toNat]

/-- Does the loop iteration for `key` write into slot `(i, j)` (grid shape
taken from `rows`)? -/
def keyTargetsB (rows : Grid) (key : String) (i j : Nat) : Bool :=
  match parseKey key with
  | .ok (r, c) => inBoundsB rows r c && r.toNat = i && c.toNat = j
  | .error _ => false

/-- Everything a successful `recalcStep` can do to the grid: leave it alone
(out-of-grid key), or write exactly one in-bounds slot. -/
theorem recalcStep_grid_cases (formulas : List (String × String)) (nR nC : Nat)
    (es : List String) (st st' : Grid × Cache × Errors) (key : String)
    (h : recalcStep formulas nR nC es st key = .ok st') :
    (st'.1 = st.1) ∨
      ∃ r c v, parseKey key = .ok (r, c) ∧ inBoundsB st.1 r c = true ∧
        st'.1 = gridWrite st.1 r c v := by
  unfold recalcStep at h
  cases hpk : parseKey key with
  | error e => rw [hpk] at h; simp at h
  | ok rc =>
    obtain ⟨r, c⟩ := rc
    rw [hpk] at h
    simp only [except_ok_bind] at h
    by_cases hb : inBoundsB st.1 r c
    · rw [if_pos hb] at h
      refine Or.inr ?_
      split at h
      · cases h; exact ⟨r, c, _, rfl, hb, rfl⟩
      · split at h
        · cases h; exact ⟨r, c, _, rfl, hb, rfl⟩
        · cases h; exact ⟨r, c, _, rfl, hb, rfl⟩
        · split at h
          · cases h; exact ⟨r, c, _, rfl, hb, rfl⟩
          · cases h; exact ⟨r, c, _, rfl, hb, rfl⟩
    · rw [if_neg hb] at h
      cases h
      exact Or.inl rfl

/-- A successful step preserves the grid shape. -/
theorem recalcStep_shape (formulas : List (String × String)) (nR nC : Nat)
    (es : List String) (st st' : Grid × Cache × Errors) (key : String)
    (h : recalcStep formulas nR nC es st key = .ok st') : shapeEq st.1 st'.1 := by
  rcases recalcStep_grid_cases formulas nR nC es st st' key h with hid | ⟨r, c, v, _, _, hw⟩
  · rw [hid]; exact shapeEq_refl _
  · rw [hw]
    exact ⟨gridWrite_length .., fun i => gridWrite_row_length .. ⟩

/-- A successful step leaves every slot it does not target unchanged. -/
theorem recalcStep_frame (formulas : List (String × String)) (nR nC : Nat)
    (es : List String) (st st' : Grid × Cache × Errors) (key : String) (i j : Nat)
    (h : recalcStep formulas nR nC es st key = .ok st')
    (hnt : keyTargetsB st.1 key i j = false) :
    (st'.1.getD i []).getD j "" = (st.1.getD i []).getD j "" := by
  rcases recalcStep_grid_cases formulas nR nC es st st' key h with hid | ⟨r, c, v, hpk, hb, hw⟩
  · rw [hid]
  · rw [hw]
    apply gridWrite_cell_ne
    intro ⟨hr, hc⟩
    rw [keyTargetsB, hpk] at hnt
    simp [hb, hr, hc] at hnt

/-- Loop version of the two step lemmas. -/
theorem recalcLoop_frame (formulas : List (String × String)) (nR nC : Nat)
    (es : List String) (keys : List String) :
    ∀ st st', recalcLoop formulas nR nC es st keys = .ok st' →
      shapeEq st.1 st'.1 ∧
      ∀ i j, (∀ key ∈ keys, keyTargetsB st.1 key i j = false) →
        (st'.1.getD i []).getD j "" = (st.1.getD i []).getD j "" := by
  induction keys with
  | nil =>
    intro st st' h
    cases h
    exact ⟨shapeEq_refl _, fun i j _ => rfl⟩
  | cons k ks ih =>
    intro st st' h
    unfold recalcLoop at h
    cases hstep : recalcStep formulas nR nC es st k with
    | error e => rw [hstep] at h; simp at h
    | ok st1 =>
      rw [hstep] at h
      simp only [except_ok_bind] at h
      obtain ⟨hsh, hfr⟩ := ih st1 st' h
      have hsh0 := recalcStep_shape formulas nR nC es st st1 k hstep
      refine ⟨shapeEq_trans hsh0 hsh, ?_⟩
      intro i j hkeys
      have h1 : (st1.1.getD i []).getD j "" = (st.1.getD i []).getD j "" :=
        recalcStep_frame formulas nR nC es st st1 k i j hstep (hkeys k (by simp))
      have h2 : (st'.1.getD i []).getD j "" = (st1.1.getD i []).getD j "" := by
        apply hfr
        intro key hk
        have : keyTargetsB st.1 key i j = false := hkeys key (by simp [hk])
        rw [keyTargetsB] at this ⊢
        cases hpk : parseKey key with
        | error e => rfl
        | ok rc =>
          obtain ⟨r, c⟩ := rc
          rw [hpk] at this
          have this' : (inBoundsB st.1 r c && decide (r.toNat = i) &&
              decide (c.toNat = j)) = false := this
          show (inBoundsB st1.1 r c && decide (r.toNat = i) &&
              decide (c.toNat = j)) = false
          rw [inBoundsB_shapeEq hsh0]
          exact this'
      exact h2.trans h1

/-- **C10** — Frame property of `recalculate`: an out-of-grid formula key is
silently skipped (its loop iteration returns the state unchanged: no grid
write, no error recorded), and on a normal return the grid keeps its exact
shape while every slot not targeted by some in-bounds key of the evaluation
order holds its original value. -/
theorem c10_recalculate_frame :
    (∀ (formulas : List (String × String)) (nR nC : Nat) (es : List String)
        (st : Grid × Cache × Errors) (key : String) (r c : Int),
      parseKey key = .ok (r, c) → inBoundsB st.1 r c = false →
      recalcStep formulas nR nC es st key = .ok st) ∧
    (∀ (rows : Grid) (formulas : List (String × String))
        (changed : Option (List String)) (g' : Grid),
      recalculate rows formulas changed = .ok g' →
      shapeEq rows g' ∧
      ∀ i j, (∀ key ∈ evalOrderOf formulas changed, keyTargetsB rows key i j = false) →
        (g'.getD i []).getD j "" = (rows.getD i []).getD j "") := by
  constructor
  · intro formulas nR nC es st key r c hpk hb
    unfold recalcStep
    rw [hpk]
    simp only [except_ok_bind]
    rw [if_neg (by simp [hb])]
  · intro rows formulas changed g' h
    unfold recalculate at h
    by_cases hf : formulas.isEmpty
    · rw [if_pos hf] at h
      cases h
      exact ⟨shapeEq_refl _, fun i j _ => rfl⟩
    · rw [if_neg hf] at h
      by_cases hc : changed = some []
      · rw [if_pos hc] at h
        cases h
        exact ⟨shapeEq_refl _, fun i j _ => rfl⟩
      · rw [if_neg hc] at h
        by_cases he : (evalOrderOf formulas changed).isEmpty
        · rw [if_pos he] at h
          cases h
          exact ⟨shapeEq_refl _, fun i j _ => rfl⟩
        · rw [if_neg he] at h
          cases hloop : recalcLoop formulas rows.length
              ((rows.map List.length).foldr max 0) (evalOrderOf formulas changed)
              (rows, [], []) (evalOrderOf formulas changed) with
          | error e => rw [hloop] at h; simp at h
          | ok st =>
            rw [hloop] at h
            cases h
            obtain ⟨hsh, hfr⟩ := recalcLoop_frame formulas rows.length
              ((rows.map List.length).foldr max 0) (evalOrderOf formulas changed)
              (evalOrderOf formulas changed) (rows, [], []) st hloop
            exact ⟨hsh, fun i j hkeys => hfr i j hkeys⟩

/-- Witness for C10: a full pass over `A1=1..A3=3, B1=SUM(A1:A3)` returns
normally, and the theorem transports the untouched slot `(0,0)` and the grid
shape. -/
theorem c10_witness :
    shapeEq [["1", ""], ["2"], ["3"]] [["1", "6"], ["2"], ["3"]] ∧
    (([["1", "6"], ["2"], ["3"]] : Grid).getD 0 []).getD 0 "" =
      (([["1", ""], ["2"], ["3"]] : Grid).getD 0 []).getD 0 "" :=
  let h := c10_recalculate_frame.2 [["1", ""], ["2"], ["3"]] [("0,1", "=SUM(A1:A3)")]
    none [["1", "6"], ["2"], ["3"]] (by decide)
  ⟨h.1, h.2 0 0 (by decide)⟩

-- ── Error-goodness infrastructure (for C2) ───────────────────────
-- Every failure `recalculate` converts to a cell string yields a string
-- beginning with `#`.  `GoodE e` states this for one exception; `PGood m`
-- states it for every exception an `EvalM` computation can raise.

/-- The cell string recorded for this exception starts with `#`. -/
@[reducible] def GoodE (e : PyErr) : Prop := startsHash (errWrite e) = true

/-- Every exception the computation can raise is `GoodE`. -/
def PGood (m : EvalM σ α) : Prop :=
  ∀ s s' e, m s = (s', .error e) → GoodE e

@[simp] theorem evalm_pure_apply (a : α) (s : σ) :
    (pure a : EvalM σ α) s = (s, .ok a) := rfl

@[simp] theorem evalm_bind_apply (m : EvalM σ α) (f : α → EvalM σ β) (s : σ) :
    (m >>= f) s =
      match m s with
      | (s', .ok a) => f a s'
      | (s', .error e) => (s', .error e) := rfl

@[simp] theorem evalm_throw_apply (e : PyErr) (s : σ) :
    (EvalM.throw e : EvalM σ α) s = (s, .error e) := rfl

theorem goodE_of_not_formulaErr (e : PyErr) (h : ∀ c, e ≠ .formulaErr c) :
    GoodE e := by
  cases e
  case formulaErr c => exact absurd rfl (h c)
  all_goals decide

theorem goodE_formulaErr {c : String} (h : startsHash c = true) :
    GoodE (.formulaErr c) := h

theorem pgood_pure (a : α) : PGood (pure a : EvalM σ α) := by
  intro s s' e h
  simp at h

theorem pgood_bind {m : EvalM σ α} {f : α → EvalM σ β}
    (hm : PGood m) (hf : ∀ a, PGood (f a)) : PGood (m >>= f) := by
  intro s s' e h
  rw [evalm_bind_apply] at h
  split at h
  · rename_i s1 a hms
    exact hf a s1 s' e h
  · rename_i s1 e1 hms
    cases h
    exact hm s _ _ hms

theorem pgood_throw {e : PyErr} (he : GoodE e) : PGood (EvalM.throw e : EvalM σ α) := by
  intro s s' e' h
  rw [evalm_throw_apply] at h
  cases h
  exact he

theorem pgood_ofExcept {x : Except PyErr α}
    (hx : ∀ e, x = .error e → GoodE e) : PGood (EvalM.ofExcept x : EvalM σ α) := by
  cases x with
  | ok a => exact pgood_pure a
  | error e => exact pgood_throw (hx e rfl)

theorem pgood_ite (c : Prop) [Decidable c] {m₁ m₂ : EvalM σ α}
    (h1 : PGood m₁) (h2 : PGood m₂) : PGood (if c then m₁ else m₂) := by
  split <;> assumption

theorem lookup_mem {β : Type} (l : List (String × β)) (k : String) (v : β)
    (h : l.lookup k = some v) : (k, v) ∈ l := by
  induction l with
  | nil => simp [List.lookup] at h
  | cons p t ih =>
    obtain ⟨k', v'⟩ := p
    rw [List.lookup] at h
    by_cases hk : k = k'
    · have hb : (k == k') = true := by simp [hk]
      rw [hb] at h
      have h' : some v' = some v := h
      cases h'
      simp [hk]
    · have hb : (k == k') = false := by simp [hk]
      rw [hb] at h
      have h' : List.lookup k t = some v := h
      exact List.mem_cons_of_mem _ (ih h')

/-- Converse of `subPiecesE_error_of_mem`: every substitution failure comes
from some match's callback. -/
theorem subPiecesE_error_src {α : Type} (repl : α → Except PyErr (List Char))
    (ps : List (Sum Char α)) :
    ∀ e, subPiecesE repl ps = .error e →
      ∃ a, Sum.inr a ∈ ps ∧ repl a = .error e := by
  induction ps with
  | nil => intro e h; simp [subPiecesE] at h
  | cons p t ih =>
    intro e h
    match p with
    | .inl c =>
      cases ht : subPiecesE repl t with
      | ok rest => simp [subPiecesE, ht] at h
      | error e' =>
        simp [subPiecesE, ht] at h
        obtain ⟨a, ha, hae⟩ := ih e' ht
        exact ⟨a, by simp [ha], h ▸ hae⟩
    | .inr b =>
      cases hb : repl b with
      | error e' =>
        simp [subPiecesE, hb] at h
        exact ⟨b, by simp, h ▸ hb⟩
      | ok r =>
        cases ht : subPiecesE repl t with
        | ok rest => simp [subPiecesE, hb, ht] at h
        | error e' =>
          simp [subPiecesE, hb, ht] at h
          obtain ⟨a, ha, hae⟩ := ih e' ht
          exact ⟨a, by simp [ha], h ▸ hae⟩

theorem parse_cell_ref_error (ref : List Char) (e : PyErr)
    (h : parse_cell_ref ref = .error e) : e = .invalidRef := by
  simp only [parse_cell_ref] at h
  split at h
  · cases h; rfl
  · split at h
    · cases h; rfl
    · split at h
      · cases h; rfl
      · cases h

theorem expand_range_error (rng : List Char) (e : PyErr)
    (h : expand_range rng = .error e) : e = .invalidRef := by
  unfold expand_range at h
  split at h
  · cases h1 : parse_cell_ref _ with
    | error e1 =>
      rw [h1] at h
      simp at h
      exact h ▸ parse_cell_ref_error _ _ h1
    | ok rc1 =>
      rw [h1] at h
      simp at h
      cases h2 : parse_cell_ref _ with
      | error e2 =>
        rw [h2] at h
        simp at h
        exact h ▸ parse_cell_ref_error _ _ h2
      | ok rc2 =>
        rw [h2] at h
        simp at h
  · cases h; rfl

theorem pyFloatDigits_error (pre : List Char) (e : PyErr)
    (h : pyFloatDigits pre = .error e) : GoodE e := by
  unfold pyFloatDigits at h
  split at h
  · cases h
  · split at h
    · cases h; decide
    · cases h
  · cases h; decide

theorem parseNumber_error (l : List Char) (e : PyErr)
    (h : parseNumber l = .error e) : GoodE e := by
  simp only [parseNumber] at h
  split at h
  · cases h; decide
  · split at h
    · cases h; decide
    · cases hd : pyFloatDigits (l.takeWhile fun c => isDigitCh c || c = '.') with
      | error e1 =>
        rw [hd] at h
        cases h
        exact pyFloatDigits_error _ _ hd
      | ok v => rw [hd] at h; simp at h

/-- All five parser productions only raise syntax, division-by-zero or
`float()` conversion errors — never a bare `FormulaError`. -/
theorem parser_error_good : ∀ fuel : Nat,
    (∀ l e, pFactor fuel l = .error e → GoodE e) ∧
    (∀ l e, pTerm fuel l = .error e → GoodE e) ∧
    (∀ acc l e, pTermLoop fuel acc l = .error e → GoodE e) ∧
    (∀ l e, pExpr fuel l = .error e → GoodE e) ∧
    (∀ acc l e, pExprLoop fuel acc l = .error e → GoodE e) := by
  intro fuel
  induction fuel with
  | zero =>
    refine ⟨?_, ?_, ?_, ?_, ?_⟩
    · intro l e h
      simp only [pFactor] at h
      cases h; decide
    · intro l e h
      simp only [pTerm] at h
      cases h; decide
    · intro acc l e h
      simp only [pTermLoop] at h
      cases h; decide
    · intro l e h
      simp only [pExpr] at h
      cases h; decide
    · intro acc l e h
      simp only [pExprLoop] at h
      cases h; decide
  | succ f ih =>
    obtain ⟨ihFactor, ihTerm, ihTermLoop, ihExpr, ihExprLoop⟩ := ih
    have factor : ∀ l e, pFactor (f + 1) l = .error e → GoodE e := by
      intro l e h
      unfold pFactor at h
      split at h
      · cases he : pExpr f _ with
        | error e1 => rw [he] at h; cases h; exact ihExpr _ _ he
        | ok vr =>
          rw [he] at h
          simp only [except_ok_bind] at h
          split at h
          · simp at h
          · cases h; decide
      · cases hf1 : pFactor f _ with
        | error e1 => rw [hf1] at h; cases h; exact ihFactor _ _ hf1
        | ok vr => rw [hf1] at h; simp at h
      · exact ihFactor _ _ h
      · exact parseNumber_error _ _ h
    refine ⟨factor, ?_, ?_, ?_, ?_⟩
    · intro l e h
      unfold pTerm at h
      cases hf1 : pFactor f l with
      | error e1 => rw [hf1] at h; cases h; exact ihFactor _ _ hf1
      | ok vr =>
        rw [hf1] at h
        simp only [except_ok_bind] at h
        exact ihTermLoop _ _ _ h
    · intro acc l e h
      unfold pTermLoop at h
      split at h
      · cases hf1 : pFactor f _ with
        | error e1 => rw [hf1] at h; cases h; exact ihFactor _ _ hf1
        | ok vr =>
          rw [hf1] at h
          simp only [except_ok_bind] at h
          exact ihTermLoop _ _ _ h
      · cases hf1 : pFactor f _ with
        | error e1 => rw [hf1] at h; cases h; exact ihFactor _ _ hf1
        | ok vr =>
          rw [hf1] at h
          simp only [except_ok_bind] at h
          split at h
          · cases h; decide
          · exact ihTermLoop _ _ _ h
      · simp at h
    · intro l e h
      unfold pExpr at h
      cases ht : pTerm f l with
      | error e1 => rw [ht] at h; cases h; exact ihTerm _ _ ht
      | ok vr =>
        rw [ht] at h
        simp only [except_ok_bind] at h
        exact ihExprLoop _ _ _ h
    · intro acc l e h
      unfold pExprLoop at h
      split at h
      · cases ht : pTerm f _ with
        | error e1 => rw [ht] at h; cases h; exact ihTerm _ _ ht
        | ok vr =>
          rw [ht] at h
          simp only [except_ok_bind] at h
          exact ihExprLoop _ _ _ h
      · cases ht : pTerm f _ with
        | error e1 => rw [ht] at h; cases h; exact ihTerm _ _ ht
        | ok vr =>
          rw [ht] at h
          simp only [except_ok_bind] at h
          exact ihExprLoop _ _ _ h
      · simp at h

theorem pyParse_error (t : List Char) (e : PyErr)
    (h : pyParse t = .error e) : GoodE e := by
  simp only [pyParse] at h
  split at h
  · cases h; decide
  · cases hp : pExpr (3 * (t.filter (· ≠ ' ')).length + 8) (t.filter (· ≠ ' ')) with
    | error e1 =>
      rw [hp] at h
      cases h
      exact (parser_error_good _).2.2.2.1 _ _ hp
    | ok vr =>
      obtain ⟨v, rest⟩ := vr
      rw [hp] at h
      cases rest with
      | nil => simp at h
      | cons a t2 => cases h; decide

theorem pgood_subPiecesM {σ α : Type} {repl : α → EvalM σ (List Char)}
    (hrepl : ∀ a, PGood (repl a)) : ∀ ps, PGood (subPiecesM repl ps)
  | [] => pgood_pure []
  | .inl c :: t => by
      unfold subPiecesM
      exact pgood_bind (pgood_subPiecesM hrepl t) (fun rest => pgood_pure _)
  | .inr a :: t => by
      unfold subPiecesM
      exact pgood_bind (hrepl a)
        (fun r => pgood_bind (pgood_subPiecesM hrepl t) (fun rest => pgood_pure _))

theorem pgood_sumCells {σ : Type} {R : Int → Int → EvalM σ PyNum}
    (hR : ∀ r c, PGood (R r c)) : ∀ cs acc, PGood (sumCells R cs acc)
  | [], acc => pgood_pure acc
  | rc :: t, acc => by
      unfold sumCells
      exact pgood_bind (hR rc.1 rc.2) (fun v => pgood_sumCells hR t (acc + v))

theorem pgood_mapCells {σ : Type} {R : Int → Int → EvalM σ PyNum}
    (hR : ∀ r c, PGood (R r c)) : ∀ cs, PGood (mapCells R cs)
  | [] => pgood_pure []
  | rc :: t => by
      unfold mapCells
      exact pgood_bind (hR rc.1 rc.2)
        (fun v => pgood_bind (pgood_mapCells hR t) (fun rest => pgood_pure _))

theorem pgood_listForM {σ β : Type} {g : β → EvalM σ PUnit}
    (hg : ∀ x, PGood (g x)) : ∀ l : List β, PGood (List.forM l g)
  | [] => pgood_pure _
  | a :: t => by
      show PGood (g a >>= fun _ => List.forM t g)
      exact pgood_bind (hg a) (fun _ => pgood_listForM hg t)

theorem pgood_boundsCheck {σ : Type} (nR nC : Nat) (rc : Int × Int) :
    PGood (boundsCheckImpl nR nC rc : EvalM σ PUnit) := by
  unfold boundsCheckImpl
  exact pgood_ite _ (pgood_throw (by decide))
    (pgood_ite _ (pgood_throw (by decide)) (pgood_pure _))

theorem pgood_funcSub {σ : Type} {R : Int → Int → EvalM σ PyNum}
    (hR : ∀ r c, PGood (R r c)) (hc : Int → Int → Bool) (nR nC : Nat)
    (fm : FuncMatch) : PGood (funcSub R hc nR nC fm) := by
  unfold funcSub
  refine pgood_bind (pgood_ofExcept fun e he => ?_) fun cells => ?_
  · rw [expand_range_error _ _ he]; decide
  · refine pgood_bind (pgood_listForM (fun x => pgood_boundsCheck nR nC x) cells)
      fun _ => ?_
    split
    · exact pgood_bind (pgood_sumCells hR cells 0) fun v => pgood_pure _
    · refine pgood_bind (pgood_mapCells hR cells) fun vals => ?_
      split
      · exact pgood_pure _
      · exact pgood_pure _
    · refine pgood_bind (pgood_mapCells hR cells) fun vals => ?_
      split
      · exact pgood_pure _
      · exact pgood_pure _
    · exact pgood_pure _
    · refine pgood_bind (pgood_mapCells hR cells) fun vals => ?_
      split
      · exact pgood_pure _
      · exact pgood_pure _
    · refine pgood_bind (pgood_mapCells hR cells) fun vals => ?_
      split
      · exact pgood_pure _
      · exact pgood_pure _
    · exact pgood_throw (by decide)

theorem pgood_refSub {σ : Type} {R : Int → Int → EvalM σ PyNum}
    (hR : ∀ r c, PGood (R r c)) (nR nC : Nat) (m : List Char × List Char) :
    PGood (refSub R nR nC m) := by
  unfold refSub
  refine pgood_bind (pgood_ofExcept fun e he => ?_) fun rc => ?_
  · rw [parse_cell_ref_error _ _ he]; decide
  · exact pgood_bind (pgood_boundsCheck nR nC rc)
      fun _ => pgood_bind (hR rc.1 rc.2) fun v => pgood_pure _

theorem pgood_evaluate {σ : Type} {R : Int → Int → EvalM σ PyNum}
    (hR : ∀ r c, PGood (R r c)) (f : String) (hc : Int → Int → Bool)
    (nR nC : Nat) : PGood (evaluate f R hc nR nC) := by
  unfold evaluate
  refine pgood_ite _ (pgood_throw (by decide)) ?_
  refine pgood_bind (pgood_subPiecesM (fun fm => pgood_funcSub hR hc nR nC fm) _)
    fun expr1 => ?_
  refine pgood_ite _ (pgood_throw (by decide)) ?_
  exact pgood_bind (pgood_subPiecesM (fun m => pgood_refSub hR nR nC m) _)
    fun expr2 => pgood_ofExcept fun e he => pyParse_error _ _ he

/-- All values recorded in the `errors` dict start with `#`. -/
def ErrGood (errors : Errors) : Prop := ∀ kv ∈ errors, startsHash kv.2 = true

theorem errGood_upsert {errors : Errors} (he : ErrGood errors) {k v : String}
    (hv : startsHash v = true) : ErrGood (alistUpsert errors k v) := by
  intro kv hkv
  unfold alistUpsert at hkv
  split at hkv
  · rw [List.mem_map] at hkv
    obtain ⟨kv0, hm0, heq⟩ := hkv
    by_cases hk : kv0.1 = k
    · rw [if_pos hk] at heq
      rw [← heq]
      exact hv
    · rw [if_neg hk] at heq
      rw [← heq]
      exact he kv0 hm0
  · rcases List.mem_append.mp hkv with hkv | hkv
    · exact he kv hkv
    · simp at hkv
      rw [hkv]
      exact hv

/-- The resolver only raises `#`-coded exceptions when every recorded error
code starts with `#`. -/
theorem resolve_good (formulas : List (String × String)) (es : List String)
    (nR nC : Nat) (rows : Grid) (errors : Errors) (he : ErrGood errors) :
    ∀ fuel r c visiting,
      PGood (resolveCell formulas es nR nC rows errors fuel r c visiting) := by
  intro fuel
  induction fuel with
  | zero =>
    intro r c visiting cache s' e h
    cases h
    decide
  | succ f ih =>
    intro r c visiting cache s' e h
    simp only [resolveCell] at h
    split at h
    · rename_i code hlk
      cases h
      exact he _ (lookup_mem _ _ _ hlk)
    · split at h
      · simp at h
      · split at h
        · cases h; decide
        · split at h
          · split at h
            · simp at h
            · rename_i cache' e1 heq
              cases h
              exact pgood_evaluate (fun rr cc => ih rr cc _) _ _ _ _ cache _ _ heq
          · split at h
            · split at h
              · split at h
                · cases h
                  have hand : getCell rows r c ≠ "" ∧
                      startsHash (getCell rows r c) = true := by assumption
                  exact hand.2
                · split at h
                  · split at h
                    · simp at h
                    · simp at h
                  · simp at h
              · simp at h
            · split at h
              · split at h
                · split at h
                  · simp at h
                  · simp at h
                · simp at h
              · simp at h

theorem validate_some_code (f : String) (code : String)
    (h : validate_formula f = .ok (some code)) : code = "#ERROR" := by
  simp only [validate_formula] at h
  split at h
  · cases h; rfl
  · split at h
    · cases h; rfl
    · split at h
      · cases h; rfl
      · split at h
        · cases h; rfl
        · split at h
          · cases h; rfl
          · split at h
            · cases h; rfl
            · split at h
              · simp at h
              · split at h
                · cases h; rfl
                · split at h
                  · simp at h
                  · simp at h

theorem validate_error_good (f : String) (e : PyErr)
    (h : validate_formula f = .error e) : GoodE e := by
  simp only [validate_formula] at h
  split at h
  · cases h
  · split at h
    · cases h
    · split at h
      · cases h
      · split at h
        · cases h
        · split at h
          · cases h
          · split at h
            · cases h
            · split at h
              · cases h
              · rename_i e1 hparse
                split at h
                · cases h
                · split at h
                  · cases h
                  · cases h
                    exact pyParse_error _ _ hparse

/-- **C5** (amended) — A malformed bare reference or function-range endpoint
is silently deleted (the `None`-returning callback is an empty replacement)
and validation proceeds on the reduced text, so `validate_formula` never
returns `"#REF"`: every `some` verdict is `"#ERROR"`; `"=SUM(A0:B3)"`
reduces to the empty expression and returns `"#ERROR"`, while `"=A0+1"`
reduces to `"+1"` and returns `None`. -/
theorem c5_validate_never_ref :
    (∀ f code, validate_formula f = .ok (some code) → code = "#ERROR") ∧
    validate_formula "=SUM(A0:B3)" = .ok (some "#ERROR") ∧
    validate_formula "=A0+1" = .ok none := by
  exact ⟨fun f code h => validate_some_code f code h, by decide, by decide⟩

theorem c5_witness :
    validate_formula "=A0" = .ok (some "#ERROR") ∧ "#ERROR" = "#ERROR" :=
  ⟨by decide, c5_validate_never_ref.1 "=A0" "#ERROR" (by decide)⟩

-- ── Grid goodness and canonical keys (for C2) ────────────────────

/-- The display string of slot `(i, j)`. -/
def cellOf (g : Grid) (i j : Nat) : String := (g.getD i []).getD j ""

/-- Every slot either still holds its original value, or holds a `#`-string
or a formatted number. -/
def GridGood (rows0 g : Grid) : Prop :=
  ∀ i j, cellOf g i j = cellOf rows0 i j ∨ startsHash (cellOf g i j) = true ∨
    ∃ q, cellOf g i j = format_result q

theorem gridWrite_cell_cases (g : Grid) (r c : Int) (v : String) (i j : Nat) :
    cellOf (gridWrite g r c v) i j = v ∨
      cellOf (gridWrite g r c v) i j = cellOf g i j := by
  unfold cellOf gridWrite
  rw [getD_set]
  split
  · next hcond =>
    rw [getD_set]
    split
    · exact Or.inl rfl
    · rw [hcond.1]
      exact Or.inr rfl
  · exact Or.inr rfl

theorem gridGood_write {rows0 g : Grid} (hg : GridGood rows0 g) {v : String}
    (hv : startsHash v = true ∨ ∃ q, v = format_result q) (r c : Int) :
    GridGood rows0 (gridWrite g r c v) := by
  intro i j
  rcases gridWrite_cell_cases g r c v i j with hc | hc
  · rw [hc]
    rcases hv with hv | hv
    · exact Or.inr (Or.inl hv)
    · exact Or.inr (Or.inr hv)
  · rw [hc]
    exact hg i j

/-- A canonical `"row,col"` key: two nonempty all-digit parts. -/
def isCanonicalKey (key : String) : Bool :=
  match key.data.splitOn ',' with
  | [a, b] => !a.isEmpty && a.all isDigitCh && !b.isEmpty && b.all isDigitCh
  | _ => false

theorem digit_not_space (c : Char) (h : isDigitCh c = true) : isSpacePy c = false := by
  unfold isSpacePy
  by_cases h1 : c = ' '
  · subst h1; exact absurd h (by decide)
  by_cases h2 : c = '\t'
  · subst h2; exact absurd h (by decide)
  by_cases h3 : c = '\n'
  · subst h3; exact absurd h (by decide)
  by_cases h4 : c = '\r'
  · subst h4; exact absurd h (by decide)
  by_cases h5 : c = '\x0b'
  · subst h5; exact absurd h (by decide)
  by_cases h6 : c = '\x0c'
  · subst h6; exact absurd h (by decide)
  simp [h1, h2, h3, h4, h5, h6]

theorem dropWhile_eq_self {p : Char → Bool} (l : List Char)
    (h : ∀ c ∈ l, p c = false) : l.dropWhile p = l := by
  cases l with
  | nil => rfl
  | cons c t => simp [List.dropWhile, h c (by simp)]

theorem stripPy_id (l : List Char) (h : ∀ c ∈ l, isSpacePy c = false) :
    stripPy l = l := by
  unfold stripPy
  rw [dropWhile_eq_self l h, dropWhile_eq_self l.reverse
    (fun c hc => h c (List.mem_reverse.mp hc)), List.reverse_reverse]

theorem pyInt_digits (l : List Char) (hne : l ≠ []) (hd : l.all isDigitCh = true) :
    pyInt (String.mk l) = .ok (digitsVal l : Int) := by
  have hall : ∀ c ∈ l, isDigitCh c = true := by
    intro c hc
    exact List.all_eq_true.mp hd c hc
  have hstrip : stripPy l = l :=
    stripPy_id l (fun c hc => digit_not_space c (hall c hc))
  simp only [pyInt]
  rw [hstrip]
  split
  · have : isDigitCh '-' = false := by decide
    simp [List.all_cons, this] at hd
  · have : isDigitCh '+' = false := by decide
    simp [List.all_cons, this] at hd
  · rw [if_pos ⟨hne, hd⟩]

theorem parseKey_canonical (key : String) (h : isCanonicalKey key = true) :
    ∃ r c, parseKey key = .ok (r, c) := by
  unfold isCanonicalKey at h
  split at h
  · rename_i a b hsplit
    simp only [Bool.and_eq_true, Bool.not_eq_true'] at h
    obtain ⟨⟨⟨ha1, ha2⟩, hb1⟩, hb2⟩ := h
    have hA := pyInt_digits a (by simpa using ha1) ha2
    have hB := pyInt_digits b (by simpa using hb1) hb2
    refine ⟨(digitsVal a : Int), (digitsVal b : Int), ?_⟩
    unfold parseKey
    rw [hsplit]
    simp [List.mapM, List.mapM.loop, hA, hB]
  · cases h

-- ── Evaluation-order keys are formula keys (for C2) ──────────────

theorem addRef_mem {s : List String} {k x : String} (h : x ∈ addRef s k) :
    x ∈ s ∨ x = k := by
  unfold addRef at h
  split at h
  · exact Or.inl h
  · rcases List.mem_append.mp h with h | h
    · exact Or.inl h
    · simp at h
      exact Or.inr h

theorem alistUpsert_mem {β : Type} {l : List (String × β)} {k : String} {v : β}
    {p : String × β} (h : p ∈ alistUpsert l k v) : p ∈ l ∨ p = (k, v) := by
  unfold alistUpsert at h
  split at h
  · rw [List.mem_map] at h
    obtain ⟨p0, hp0, heq⟩ := h
    split at heq
    · exact Or.inr heq.symm
    · exact Or.inl (heq ▸ hp0)
  · rcases List.mem_append.mp h with h | h
    · exact Or.inl h
    · simp at h
      exact Or.inr h

theorem reverseAdd_inv {P : String → Prop} {rev : List (String × List String)}
    (hrev : ∀ p ∈ rev, ∀ x ∈ p.2, P x) {ref key : String} (hkey : P key) :
    ∀ p ∈ reverseAdd rev ref key, ∀ x ∈ p.2, P x := by
  intro p hp x hx
  unfold reverseAdd at hp
  split at hp
  · rcases List.mem_append.mp hp with hp | hp
    · exact hrev p hp x hx
    · simp at hp
      subst hp
      simp at hx
      exact hx ▸ hkey
  · rename_i s hlk
    rcases alistUpsert_mem hp with hp | hp
    · exact hrev p hp x hx
    · subst hp
      rcases addRef_mem hx with hx | hx
      · exact hrev _ (lookup_mem _ _ _ hlk) x hx
      · exact hx ▸ hkey

theorem buildGraph_reverse_values (formulas : List (String × String)) :
    ∀ p ∈ (buildGraph formulas).reverse, ∀ x ∈ p.2, x ∈ formulas.map Prod.fst := by
  unfold buildGraph
  suffices hgen : ∀ (fs : List (String × String)) (g0 : DepGraph),
      (∀ kv ∈ fs, kv.1 ∈ formulas.map Prod.fst) →
      (∀ p ∈ g0.reverse, ∀ x ∈ p.2, x ∈ formulas.map Prod.fst) →
      ∀ p ∈ (fs.foldl (fun g kf =>
        { forward := alistUpsert g.forward kf.1 (extract_refs kf.2)
          reverse := (extract_refs kf.2).foldl
            (fun rev ref => reverseAdd rev ref kf.1) g.reverse }) g0).reverse,
        ∀ x ∈ p.2, x ∈ formulas.map Prod.fst by
    intro p hp x hx
    exact hgen formulas ⟨[], []⟩
      (fun kv hkv => List.mem_map.mpr ⟨kv, hkv, rfl⟩)
      (fun p hp => by simp at hp) p hp x hx
  intro fs
  induction fs with
  | nil => intro g0 _ hg0; exact hg0
  | cons kf t ih =>
    intro g0 hfs hg0
    refine ih _ (fun kv hkv => hfs kv (by simp [hkv])) ?_
    have hkey : kf.1 ∈ formulas.map Prod.fst := hfs kf (by simp)
    suffices hfold : ∀ (refs : List String) (rev : List (String × List String)),
        (∀ p ∈ rev, ∀ x ∈ p.2, x ∈ formulas.map Prod.fst) →
        ∀ p ∈ refs.foldl (fun rev ref => reverseAdd rev ref kf.1) rev,
          ∀ x ∈ p.2, x ∈ formulas.map Prod.fst by
      exact hfold (extract_refs kf.2) g0.reverse hg0
    intro refs
    induction refs with
    | nil => intro rev hrev; exact hrev
    | cons ref rt ihr =>
      intro rev hrev
      exact ihr _ (reverseAdd_inv hrev hkey)

theorem buildGraph_forward_keys (formulas : List (String × String)) :
    ∀ p ∈ (buildGraph formulas).forward, p.1 ∈ formulas.map Prod.fst := by
  unfold buildGraph
  suffices hgen : ∀ (fs : List (String × String)) (g0 : DepGraph),
      (∀ kv ∈ fs, kv.1 ∈ formulas.map Prod.fst) →
      (∀ p ∈ g0.forward, p.1 ∈ formulas.map Prod.fst) →
      ∀ p ∈ (fs.foldl (fun g kf =>
        { forward := alistUpsert g.forward kf.1 (extract_refs kf.2)
          reverse := (extract_refs kf.2).foldl
            (fun rev ref => reverseAdd rev ref kf.1) g.reverse }) g0).forward,
        p.1 ∈ formulas.map Prod.fst by
    intro p hp
    exact hgen formulas ⟨[], []⟩
      (fun kv hkv => List.mem_map.mpr ⟨kv, hkv, rfl⟩)
      (fun p hp => by simp at hp) p hp
  intro fs
  induction fs with
  | nil => intro g0 _ hg0; exact hg0
  | cons kf t ih =>
    intro g0 hfs hg0
    refine ih _ (fun kv hkv => hfs kv (by simp [hkv])) ?_
    intro p hp
    rcases alistUpsert_mem hp with hp | hp
    · exact hg0 p hp
    · rw [hp]
      exact hfs kf (by simp)

theorem adjAppend_inv {P : String → Prop} {adj : List (String × List String)}
    (hadj : ∀ p ∈ adj, ∀ x ∈ p.2, P x) {ref k : String} (hk : P k) :
    ∀ p ∈ adjAppend adj ref k, ∀ x ∈ p.2, P x := by
  intro p hp x hx
  unfold adjAppend at hp
  rw [List.mem_map] at hp
  obtain ⟨p0, hp0, heq⟩ := hp
  split at heq
  · subst heq
    rcases List.mem_append.mp hx with hx | hx
    · exact hadj p0 hp0 x hx
    · simp at hx
      exact hx ▸ hk
  · exact hadj p0 hp0 x (heq ▸ hx)

theorem buildIndegAdj_adj_values (keys : List String) (fwd : String → List String) :
    ∀ p ∈ (buildIndegAdj keys fwd).2, ∀ x ∈ p.2, x ∈ keys := by
  unfold buildIndegAdj
  suffices hgen : ∀ (l : List String) (st : List (String × Int) × List (String × List String)),
      (∀ k ∈ l, k ∈ keys) →
      (∀ p ∈ st.2, ∀ x ∈ p.2, x ∈ keys) →
      ∀ p ∈ (l.foldl (fun st k =>
        (fwd k).foldl (fun st ref =>
          if ref ∈ keys then (indegIncr st.1 k, adjAppend st.2 ref k) else st) st) st).2,
        ∀ x ∈ p.2, x ∈ keys by
    intro p hp x hx
    refine hgen keys _ (fun k hk => hk) ?_ p hp x hx
    intro p hp
    rw [List.mem_map] at hp
    obtain ⟨k, _, heq⟩ := hp
    intro x hx
    rw [← heq] at hx
    simp at hx
  intro l
  induction l with
  | nil => intro st _ hst; exact hst
  | cons k t ih =>
    intro st hl hst
    refine ih _ (fun k' hk' => hl k' (by simp [hk'])) ?_
    have hk : k ∈ keys := hl k (by simp)
    suffices hfold : ∀ (refs : List String)
        (st : List (String × Int) × List (String × List String)),
        (∀ p ∈ st.2, ∀ x ∈ p.2, x ∈ keys) →
        ∀ p ∈ (refs.foldl (fun st ref =>
          if ref ∈ keys then (indegIncr st.1 k, adjAppend st.2 ref k) else st) st).2,
          ∀ x ∈ p.2, x ∈ keys by
      exact hfold (fwd k) st hst
    intro refs
    induction refs with
    | nil => intro st hst; exact hst
    | cons ref rt ihr =>
      intro st hst
      refine ihr _ ?_
      dsimp only
      by_cases href : ref ∈ keys
      · simp only [if_pos href]
        exact adjAppend_inv hst hk
      · simp only [if_neg href]
        exact hst

theorem decNeighbors_queue_mem (ns : List String) :
    ∀ (st : List (String × Int) × List String) (x : String),
      x ∈ (ns.foldl (fun st nb =>
        let indeg' := decKey st.1 nb
        if indeg'.lookup nb = some 0 then (indeg', st.2 ++ [nb]) else (indeg', st.2))
        st).2 →
      x ∈ st.2 ∨ x ∈ ns := by
  induction ns with
  | nil => intro st x hx; exact Or.inl hx
  | cons nb t ih =>
    intro st x hx
    rcases ih _ x hx with hx | hx
    · dsimp at hx
      split at hx
      · rcases List.mem_append.mp hx with hx | hx
        · exact Or.inl hx
        · simp at hx
          exact Or.inr (by simp [hx])
      · exact Or.inl hx
    · exact Or.inr (by simp [hx])

theorem kahnLoop_subset (adj : List (String × List String)) (U : List String)
    (hadj : ∀ p ∈ adj, ∀ x ∈ p.2, x ∈ U) :
    ∀ (fuel : Nat) (queue : List String) (indeg : List (String × Int))
      (result : List String),
      (∀ x ∈ queue, x ∈ U) → (∀ x ∈ result, x ∈ U) →
      ∀ x ∈ kahnLoop adj fuel queue indeg result, x ∈ U := by
  intro fuel
  induction fuel with
  | zero => intro queue indeg result _ hres x hx; exact hres x hx
  | succ f ih =>
    intro queue indeg result hq hres x hx
    cases queue with
    | nil => exact hres x hx
    | cons node qrest =>
      rw [kahnLoop] at hx
      refine ih _ _ _ ?_ ?_ x hx
      · intro y hy
        have := decNeighbors_queue_mem ((adj.lookup node).getD []) (indeg, qrest) y
          (by exact hy)
        rcases this with hy' | hy'
        · exact hq y (by simp [hy'])
        · cases hlk : adj.lookup node with
          | none => rw [hlk] at hy'; simp at hy'
          | some l =>
            rw [hlk] at hy'
            exact hadj _ (lookup_mem _ _ _ hlk) y hy'
      · intro y hy
        rcases List.mem_append.mp hy with hy | hy
        · exact hres y hy
        · simp at hy
          exact hq y (by simp [hy])

theorem topoSort_subset (g : DepGraph) (keys : List String) :
    ∀ x ∈ topoSort g keys, x ∈ keys := by
  intro x hx
  unfold topoSort at hx
  split at hx
  · simp at hx
  · rcases List.mem_append.mp hx with hx | hx
    · refine kahnLoop_subset _ keys (buildIndegAdj_adj_values keys (fwdOf g)) _ _ _ _
        (fun y hy => List.mem_of_mem_filter hy) (fun y hy => by simp at hy) x hx
    · exact List.mem_of_mem_filter hx

theorem revOf_subset {g : DepGraph} {U : List String}
    (hrev : ∀ p ∈ g.reverse, ∀ x ∈ p.2, x ∈ U) (k : String) :
    ∀ x ∈ revOf g k, x ∈ U := by
  intro x hx
  unfold revOf at hx
  cases hlk : g.reverse.lookup k with
  | none => rw [hlk] at hx; simp at hx
  | some l =>
    rw [hlk] at hx
    exact hrev _ (lookup_mem _ _ _ hlk) x hx

theorem bfsFold_subset (U : List String) (d : Nat) :
    ∀ (deps : List String) (st : List String × List (String × Nat)),
      (∀ x ∈ st.1, x ∈ U) → (∀ x ∈ deps, x ∈ U) →
      ∀ x ∈ (deps.foldl (fun p dep =>
        if dep ∈ p.1 then p else (p.1 ++ [dep], p.2 ++ [(dep, d)])) st).1, x ∈ U := by
  intro deps
  induction deps with
  | nil => intro st hst _ x hx; exact hst x hx
  | cons dep t ih =>
    intro st hst hdeps x hx
    refine ih _ ?_ (fun y hy => hdeps y (by simp [hy])) x hx
    dsimp
    split
    · exact hst
    · intro y hy
      rcases List.mem_append.mp hy with hy | hy
      · exact hst y hy
      · simp at hy
        exact hdeps y (by simp [hy])

theorem bfsLoop_subset {g : DepGraph} {U : List String}
    (hrev : ∀ p ∈ g.reverse, ∀ x ∈ p.2, x ∈ U) :
    ∀ (fuel : Nat) (queue : List (String × Nat)) (aff : List String),
      (∀ x ∈ aff, x ∈ U) → ∀ x ∈ bfsLoop g fuel queue aff, x ∈ U := by
  intro fuel
  induction fuel with
  | zero => intro queue aff haff x hx; exact haff x hx
  | succ f ih =>
    intro queue aff haff x hx
    cases queue with
    | nil => exact haff x hx
    | cons cd qrest =>
      obtain ⟨cell, depth⟩ := cd
      rw [bfsLoop] at hx
      split at hx
      · exact ih _ _ haff x hx
      · exact ih _ _
          (bfsFold_subset U (depth + 1) (revOf g cell) (aff, qrest) haff
            (revOf_subset hrev cell)) x hx

theorem affected_subset {g : DepGraph} {U : List String}
    (hrev : ∀ p ∈ g.reverse, ∀ x ∈ p.2, x ∈ U) (changed : List String) :
    ∀ x ∈ g.affected changed, x ∈ U := by
  intro x hx
  unfold DepGraph.affected at hx
  have hx' := topoSort_subset g _ x hx
  refine bfsLoop_subset hrev _ _ _ ?_ x hx'
  suffices hinit : ∀ (cl : List String) (st : List String × List (String × Nat)),
      (∀ y ∈ st.1, y ∈ U) →
      ∀ y ∈ (cl.foldl (fun p cell => (revOf g cell).foldl (fun p dep =>
        if dep ∈ p.1 then p else (p.1 ++ [dep], p.2 ++ [(dep, 1)])) p) st).1, y ∈ U by
    exact hinit changed ([], []) (fun y hy => by simp at hy)
  intro cl
  induction cl with
  | nil => intro st hst; exact hst
  | cons cell t ih =>
    intro st hst
    exact ih _ (bfsFold_subset U 1 (revOf g cell) st hst (revOf_subset hrev cell))

theorem evalOrder_subset (formulas : List (String × String))
    (changed : Option (List String)) :
    ∀ k ∈ evalOrderOf formulas changed, k ∈ formulas.map Prod.fst := by
  intro k hk
  unfold evalOrderOf at hk
  cases changed with
  | some s =>
    exact affected_subset (buildGraph_reverse_values formulas) s k hk
  | none =>
    have hk' := topoSort_subset _ _ k hk
    rw [List.mem_map] at hk'
    obtain ⟨p, hp, heq⟩ := hk'
    exact heq ▸ buildGraph_forward_keys formulas p hp

theorem step_ok_good (formulas : List (String × String)) (nR nC : Nat)
    (evalSet : List String) (rows0 : Grid) (st : Grid × Cache × Errors)
    (key : String) (hk : isCanonicalKey key = true)
    (hg : GridGood rows0 st.1) (he : ErrGood st.2.2) :
    ∃ st', recalcStep formulas nR nC evalSet st key = .ok st' ∧
      GridGood rows0 st'.1 ∧ ErrGood st'.2.2 := by
  obtain ⟨r, c, hpk⟩ := parseKey_canonical key hk
  simp only [recalcStep, hpk, except_ok_bind]
  by_cases hb : inBoundsB st.1 r c
  · rw [if_pos hb]
    cases hlk : formulas.lookup key with
    | none =>
      refine ⟨(gridWrite st.1 r c "#ERROR", st.2.1,
        alistUpsert st.2.2 key "#ERROR"), ?_, ?_, ?_⟩
      · rfl
      · exact gridGood_write hg (Or.inl (by decide)) r c
      · exact errGood_upsert he (by decide)
    | some ftext =>
      dsimp only
      cases hv : validate_formula ftext with
      | error e =>
        refine ⟨(gridWrite st.1 r c (errWrite e), st.2.1,
          alistUpsert st.2.2 key (errWrite e)), ?_, ?_, ?_⟩
        · rfl
        · exact gridGood_write hg (Or.inl (validate_error_good ftext e hv)) r c
        · exact errGood_upsert he (validate_error_good ftext e hv)
      | ok vr =>
        cases vr with
        | some code =>
          have hcode := validate_some_code ftext code hv
          subst hcode
          refine ⟨(gridWrite st.1 r c "#ERROR", st.2.1,
            alistUpsert st.2.2 key "#ERROR"), ?_, ?_, ?_⟩
          · rfl
          · exact gridGood_write hg (Or.inl (by decide)) r c
          · exact errGood_upsert he (by decide)
        | none =>
          cases hres : resolveCell formulas evalSet nR nC st.1 st.2.2
              (MAX_DEPTH + 1) r c [] st.2.1 with
          | mk cache' res =>
            cases res with
            | ok val =>
              refine ⟨(gridWrite st.1 r c (format_result val), cache', st.2.2),
                ?_, ?_, ?_⟩
              · rfl
              · exact gridGood_write hg (Or.inr ⟨val, rfl⟩) r c
              · exact he
            | error e =>
              have hgood : startsHash (errWrite e) = true :=
                resolve_good formulas evalSet nR nC st.1 st.2.2 he
                  (MAX_DEPTH + 1) r c [] st.2.1 cache' e hres
              refine ⟨(gridWrite st.1 r c (errWrite e), cache',
                alistUpsert st.2.2 key (errWrite e)), ?_, ?_, ?_⟩
              · rfl
              · exact gridGood_write hg (Or.inl hgood) r c
              · exact errGood_upsert he hgood
  · rw [if_neg hb]
    exact ⟨st, rfl, hg, he⟩

theorem recalcLoop_ok_good (formulas : List (String × String)) (nR nC : Nat)
    (evalSet : List String) (rows0 : Grid) :
    ∀ (keys : List String) (st : Grid × Cache × Errors),
      (∀ k ∈ keys, isCanonicalKey k = true) →
      GridGood rows0 st.1 → ErrGood st.2.2 →
      ∃ st', recalcLoop formulas nR nC evalSet st keys = .ok st' ∧
        GridGood rows0 st'.1 ∧ ErrGood st'.2.2 := by
  intro keys
  induction keys with
  | nil =>
    intro st _ hg he
    exact ⟨st, rfl, hg, he⟩
  | cons k ks ih =>
    intro st hks hg he
    obtain ⟨st1, hstep, hg1, he1⟩ :=
      step_ok_good formulas nR nC evalSet rows0 st k (hks k (by simp)) hg he
    obtain ⟨st', hloop, hg', he'⟩ :=
      ih st1 (fun k' hk' => hks k' (by simp [hk'])) hg1 he1
    refine ⟨st', ?_, hg', he'⟩
    simp only [recalcLoop, hstep, except_ok_bind]
    exact hloop

/-- C2 (amended): for every grid and every formula map whose keys are
canonical `"row,col"` digit strings, `recalculate` raises no exception: it
returns normally, and every grid slot either keeps its original value or
holds a formatted number or a string beginning with `#`. -/
theorem c2_recalculate_returns_normally (rows : Grid)
    (formulas : List (String × String)) (changed : Option (List String))
    (hkeys : ∀ kv ∈ formulas, isCanonicalKey kv.1 = true) :
    ∃ g', recalculate rows formulas changed = .ok g' ∧
      ∀ i j, cellOf g' i j = cellOf rows i j ∨
        startsHash (cellOf g' i j) = true ∨
        ∃ q, cellOf g' i j = format_result q := by
  by_cases h1 : formulas.isEmpty = true
  · exact ⟨rows, by simp [recalculate, h1], fun i j => Or.inl rfl⟩
  by_cases h2 : changed = some []
  · exact ⟨rows, by simp [recalculate, h1, h2], fun i j => Or.inl rfl⟩
  by_cases h3 : (evalOrderOf formulas changed).isEmpty = true
  · refine ⟨rows, ?_, fun i j => Or.inl rfl⟩
    simp only [recalculate, if_neg h1, if_neg h2]
    rw [if_pos h3]
  have horder : ∀ k ∈ evalOrderOf formulas changed, isCanonicalKey k = true := by
    intro k hk
    have hmem := evalOrder_subset formulas changed k hk
    rw [List.mem_map] at hmem
    obtain ⟨kv, hkv, heq⟩ := hmem
    exact heq ▸ hkeys kv hkv
  obtain ⟨st', hloop, hg', _⟩ := recalcLoop_ok_good formulas rows.length
    ((rows.map List.length).foldr max 0) (evalOrderOf formulas changed) rows
    (evalOrderOf formulas changed) (rows, [], []) horder
    (fun i j => Or.inl rfl) (fun kv hkv => by simp at hkv)
  refine ⟨st'.1, ?_, hg'⟩
  simp only [recalculate, if_neg h1, if_neg h2, if_neg h3, hloop]

theorem c2_witness :
    (∀ kv ∈ [("0,0", "=1+2*3")], isCanonicalKey kv.1 = true) ∧
    ∃ g', recalculate [[""]] [("0,0", "=1+2*3")] none = .ok g' ∧
      ∀ i j, cellOf g' i j = cellOf [[""]] i j ∨
        startsHash (cellOf g' i j) = true ∨
        ∃ q, cellOf g' i j = format_result q :=
  ⟨by decide,
   c2_recalculate_returns_normally [[""]] [("0,0", "=1+2*3")] none (by decide)⟩

-- ── Kahn-loop characterization (for C4) ──────────────────────────

/-- The in-`S` reads of key `k` (its formula's references restricted to the
sorted subset). -/
def inRefsOf (fwd : String → List String) (S : List String) (k : String) :
    List String :=
  (fwd k).filter (fun x => decide (x ∈ S))

/-- The keys of `S` (in subset order) whose formulas read `node`. -/
def readersOf (fwd : String → List String) (S : List String) (node : String) :
    List String :=
  S.filter (fun k => decide (node ∈ fwd k))

/-- The in-`S` reads of `k` not yet popped into `R`. -/
def remainingOf (fwd : String → List String) (S R : List String) (k : String) :
    List String :=
  (inRefsOf fwd S k).filter (fun x => decide (¬ x ∈ R))

theorem lookup_cons_self {β : Type} (a : String) (b : β) (t : List (String × β)) :
    ((a, b) :: t).lookup a = some b := by
  rw [List.lookup]
  have hb : (a == a) = true := by simp
  rw [hb]

theorem lookup_cons_ne {β : Type} {k a : String} (h : k ≠ a) (b : β)
    (t : List (String × β)) : ((a, b) :: t).lookup k = t.lookup k := by
  rw [List.lookup]
  have hb : (k == a) = false := by simp [h]
  rw [hb]

theorem lookup_map_update {β : Type} (g : β → β) (k : String) :
    ∀ (l : List (String × β)) (k' : String),
      (l.map (fun kv => if kv.1 = k then (kv.1, g kv.2) else kv)).lookup k' =
        if k' = k then (l.lookup k').map g else l.lookup k' := by
  intro l
  induction l with
  | nil =>
    intro k'
    simp only [List.map_nil]
    split <;> rfl
  | cons p t ih =>
    intro k'
    obtain ⟨a, b⟩ := p
    simp only [List.map_cons]
    by_cases hak : a = k
    · simp only [if_pos hak]
      by_cases hk'a : k' = a
      · subst hk'a
        rw [lookup_cons_self, lookup_cons_self, if_pos hak]
        rfl
      · rw [lookup_cons_ne hk'a, lookup_cons_ne hk'a, ih k']
    · simp only [if_neg hak]
      by_cases hk'a : k' = a
      · subst hk'a
        rw [lookup_cons_self, lookup_cons_self, if_neg hak]
      · rw [lookup_cons_ne hk'a, lookup_cons_ne hk'a, ih k']

theorem indegIncr_lookup (indeg : List (String × Int)) (k k' : String) :
    (indegIncr indeg k).lookup k' =
      if k' = k then (indeg.lookup k').map (· + 1) else indeg.lookup k' :=
  lookup_map_update (· + 1) k indeg k'

theorem decKey_lookup (indeg : List (String × Int)) (k k' : String) :
    (decKey indeg k).lookup k' =
      if k' = k then (indeg.lookup k').map (· - 1) else indeg.lookup k' :=
  lookup_map_update (· - 1) k indeg k'

theorem adjAppend_lookup (adj : List (String × List String)) (ref k ref' : String) :
    (adjAppend adj ref k).lookup ref' =
      if ref' = ref then (adj.lookup ref').map (· ++ [k]) else adj.lookup ref' :=
  lookup_map_update (· ++ [k]) ref adj ref'

theorem lookup_map_pair {β : Type} (f : String → β) :
    ∀ (l : List String) (k : String),
      (l.map (fun x => (x, f x))).lookup k =
        if k ∈ l then some (f k) else none := by
  intro l
  induction l with
  | nil =>
    intro k
    simp [List.lookup]
  | cons a t ih =>
    intro k
    simp only [List.map_cons]
    by_cases hka : k = a
    · subst hka
      rw [lookup_cons_self, if_pos (by simp)]
    · rw [lookup_cons_ne hka, ih k]
      by_cases hkt : k ∈ t
      · rw [if_pos hkt, if_pos (by simp [hkt])]
      · rw [if_neg hkt, if_neg (by simp [hka, hkt])]

theorem innerIndeg_lookup (S : List String) (k : String) :
    ∀ (refs : List String)
      (st : List (String × Int) × List (String × List String)) (k' : String),
      ((refs.foldl (fun st ref =>
        if ref ∈ S then (indegIncr st.1 k, adjAppend st.2 ref k) else st) st).1).lookup k' =
        if k' = k then
          (st.1.lookup k').map
            (fun v => v + (((refs.filter fun x => decide (x ∈ S)).length : Int)))
        else st.1.lookup k' := by
  intro refs
  induction refs with
  | nil =>
    intro st k'
    simp only [List.foldl_nil, List.filter_nil, List.length_nil]
    split
    · cases st.1.lookup k' <;> simp
    · rfl
  | cons ref rt ih =>
    intro st k'
    rw [List.foldl_cons]
    by_cases hr : ref ∈ S
    · rw [if_pos hr, ih]
      by_cases hk : k' = k
      · simp only [if_pos hk, indegIncr_lookup]
        cases st.1.lookup k' <;> simp [List.filter_cons, hr] <;> omega
      · simp only [if_neg hk, indegIncr_lookup]
    · rw [if_neg hr, ih]
      by_cases hk : k' = k
      · simp only [if_pos hk]
        cases st.1.lookup k' <;> simp [List.filter_cons, hr]
      · simp only [if_neg hk]

theorem innerAdj_lookup (S : List String) (k : String) :
    ∀ (refs : List String), refs.Nodup →
    ∀ (st : List (String × Int) × List (String × List String)) (ref' : String),
      ((refs.foldl (fun st ref =>
        if ref ∈ S then (indegIncr st.1 k, adjAppend st.2 ref k) else st) st).2).lookup ref' =
        if ref' ∈ refs ∧ ref' ∈ S then (st.2.lookup ref').map (· ++ [k])
        else st.2.lookup ref' := by
  intro refs
  induction refs with
  | nil =>
    intro _ st ref'
    simp
  | cons ref rt ih =>
    intro hnd st ref'
    obtain ⟨hni, hndt⟩ := List.nodup_cons.mp hnd
    rw [List.foldl_cons]
    by_cases hr : ref ∈ S
    · rw [if_pos hr, ih hndt]
      by_cases h1 : ref' = ref
      · subst h1
        have hcneg : ¬(ref' ∈ rt ∧ ref' ∈ S) := fun h => hni h.1
        rw [if_neg hcneg]
        simp only [adjAppend_lookup, if_pos rfl]
        have hc : ref' ∈ ref' :: rt ∧ ref' ∈ S := ⟨by simp, hr⟩
        rw [if_pos hc]
        simp
      · simp only [adjAppend_lookup, if_neg h1]
        by_cases h2 : ref' ∈ rt ∧ ref' ∈ S
        · have hc : ref' ∈ ref :: rt ∧ ref' ∈ S := ⟨by simp [h2.1], h2.2⟩
          rw [if_pos h2, if_pos hc]
        · have hcneg : ¬(ref' ∈ ref :: rt ∧ ref' ∈ S) := fun h => h2 ⟨by
            rcases List.mem_cons.mp h.1 with hc | hc
            · exact absurd hc h1
            · exact hc, h.2⟩
          rw [if_neg h2, if_neg hcneg]
    · rw [if_neg hr, ih hndt]
      by_cases h2 : ref' ∈ rt ∧ ref' ∈ S
      · have hc : ref' ∈ ref :: rt ∧ ref' ∈ S := ⟨by simp [h2.1], h2.2⟩
        rw [if_pos h2, if_pos hc]
      · have hcneg : ¬(ref' ∈ ref :: rt ∧ ref' ∈ S) := fun h => by
          rcases List.mem_cons.mp h.1 with hc | hc
          · subst hc
            exact hr h.2
          · exact h2 ⟨hc, h.2⟩
        rw [if_neg h2, if_neg hcneg]

theorem outerIndeg_lookup (S : List String) (fwd : String → List String) :
    ∀ (T : List String), T.Nodup →
    ∀ (st : List (String × Int) × List (String × List String)) (k' : String),
      ((T.foldl (fun st k => (fwd k).foldl (fun st ref =>
        if ref ∈ S then (indegIncr st.1 k, adjAppend st.2 ref k) else st) st) st).1).lookup k' =
        if k' ∈ T then
          (st.1.lookup k').map (fun v => v + ((inRefsOf fwd S k').length : Int))
        else st.1.lookup k' := by
  intro T
  induction T with
  | nil =>
    intro _ st k'
    simp
  | cons k T ih =>
    intro hnd st k'
    obtain ⟨hni, hndt⟩ := List.nodup_cons.mp hnd
    rw [List.foldl_cons, ih hndt, innerIndeg_lookup]
    by_cases hk : k' = k
    · subst hk
      rw [if_neg hni, if_pos rfl, if_pos (by simp)]
      rfl
    · rw [if_neg hk]
      by_cases ht : k' ∈ T
      · rw [if_pos ht, if_pos (by simp [ht])]
      · rw [if_neg ht, if_neg (by simp [hk, ht])]

theorem outerAdj_lookup (S : List String) (fwd : String → List String)
    (hfwd : ∀ k, (fwd k).Nodup) :
    ∀ (T : List String)
      (st : List (String × Int) × List (String × List String)) (ref : String),
      ref ∈ S →
      ((T.foldl (fun st k => (fwd k).foldl (fun st ref =>
        if ref ∈ S then (indegIncr st.1 k, adjAppend st.2 ref k) else st) st) st).2).lookup ref =
        (st.2.lookup ref).map (· ++ T.filter (fun k => decide (ref ∈ fwd k))) := by
  intro T
  induction T with
  | nil =>
    intro st ref _
    simp only [List.foldl_nil, List.filter_nil]
    cases st.2.lookup ref <;> simp
  | cons k T ih =>
    intro st ref href
    rw [List.foldl_cons, ih _ ref href, innerAdj_lookup S k (fwd k) (hfwd k)]
    by_cases hr : ref ∈ fwd k
    · rw [if_pos ⟨hr, href⟩]
      cases st.2.lookup ref <;> simp [List.filter_cons, hr]
    · rw [if_neg (fun h => hr h.1)]
      cases st.2.lookup ref <;> simp [List.filter_cons, hr]

theorem buildIndegAdj_indeg_lookup (S : List String) (fwd : String → List String)
    (hS : S.Nodup) (k : String) (hk : k ∈ S) :
    (buildIndegAdj S fwd).1.lookup k = some ((inRefsOf fwd S k).length : Int) := by
  unfold buildIndegAdj
  rw [outerIndeg_lookup S fwd S hS _ k, if_pos hk, lookup_map_pair, if_pos hk]
  simp

theorem buildIndegAdj_adj_lookup (S : List String) (fwd : String → List String)
    (hfwd : ∀ k, (fwd k).Nodup) (node : String) (hnode : node ∈ S) :
    (buildIndegAdj S fwd).2.lookup node = some (readersOf fwd S node) := by
  unfold buildIndegAdj
  rw [outerAdj_lookup S fwd hfwd S _ node hnode, lookup_map_pair, if_pos hnode]
  simp [readersOf]

theorem decFold_spec :
    ∀ (ns : List String), ns.Nodup →
    ∀ (st : List (String × Int) × List String),
      (∀ k', ((ns.foldl (fun st nb =>
          let indeg' := decKey st.1 nb
          if indeg'.lookup nb = some 0 then (indeg', st.2 ++ [nb])
          else (indeg', st.2)) st).1).lookup k' =
        if k' ∈ ns then (st.1.lookup k').map (· - 1) else st.1.lookup k') ∧
      ((ns.foldl (fun st nb =>
          let indeg' := decKey st.1 nb
          if indeg'.lookup nb = some 0 then (indeg', st.2 ++ [nb])
          else (indeg', st.2)) st).2 =
        st.2 ++ ns.filter (fun nb => decide (st.1.lookup nb = some 1))) := by
  intro ns
  induction ns with
  | nil =>
    intro _ st
    constructor
    · intro k'
      simp
    · simp
  | cons nb t ih =>
    intro hnd st
    obtain ⟨hni, hndt⟩ := List.nodup_cons.mp hnd
    rw [List.foldl_cons]
    have hdecnb : (decKey st.1 nb).lookup nb = (st.1.lookup nb).map (· - 1) := by
      rw [decKey_lookup, if_pos rfl]
    by_cases hc : (decKey st.1 nb).lookup nb = some 0
    · have hone : st.1.lookup nb = some 1 := by
        rw [hdecnb] at hc
        cases hv : st.1.lookup nb with
        | none => rw [hv] at hc; simp at hc
        | some v =>
          rw [hv] at hc
          simp at hc
          have : v = 1 := by omega
          rw [this]
      simp only [if_pos hc]
      obtain ⟨ih1, ih2⟩ := ih hndt (decKey st.1 nb, st.2 ++ [nb])
      constructor
      · intro k'
        rw [ih1 k']
        by_cases hk : k' = nb
        · subst hk
          rw [if_neg hni, if_pos (by simp), hdecnb]
        · rw [decKey_lookup, if_neg hk]
          by_cases ht : k' ∈ t
          · rw [if_pos ht, if_pos (by simp [ht])]
          · rw [if_neg ht, if_neg (by simp [hk, ht])]
      · rw [ih2]
        have hfc : t.filter (fun nb' => decide ((decKey st.1 nb).lookup nb' = some 1)) =
            t.filter (fun nb' => decide (st.1.lookup nb' = some 1)) := by
          apply List.filter_congr
          intro x hx
          rw [decKey_lookup, if_neg (fun (hxe : x = nb) => hni (hxe ▸ hx))]
        rw [hfc, List.filter_cons, if_pos (by simp [hone])]
        simp
    · have hnone : ¬ st.1.lookup nb = some 1 := by
        intro hone
        rw [hdecnb, hone] at hc
        simp at hc
      simp only [if_neg hc]
      obtain ⟨ih1, ih2⟩ := ih hndt (decKey st.1 nb, st.2)
      constructor
      · intro k'
        rw [ih1 k']
        by_cases hk : k' = nb
        · subst hk
          rw [if_neg hni, if_pos (by simp), hdecnb]
        · rw [decKey_lookup, if_neg hk]
          by_cases ht : k' ∈ t
          · rw [if_pos ht, if_pos (by simp [ht])]
          · rw [if_neg ht, if_neg (by simp [hk, ht])]
      · rw [ih2]
        have hfc : t.filter (fun nb' => decide ((decKey st.1 nb).lookup nb' = some 1)) =
            t.filter (fun nb' => decide (st.1.lookup nb' = some 1)) := by
          apply List.filter_congr
          intro x hx
          rw [decKey_lookup, if_neg (fun (hxe : x = nb) => hni (hxe ▸ hx))]
        rw [hfc, List.filter_cons, if_neg (by simp [hnone])]

theorem decNeighbors_indeg_lookup (ns : List String) (hnd : ns.Nodup)
    (indeg : List (String × Int)) (queue : List String) (k' : String) :
    (decNeighbors ns indeg queue).1.lookup k' =
      if k' ∈ ns then (indeg.lookup k').map (· - 1) else indeg.lookup k' :=
  (decFold_spec ns hnd (indeg, queue)).1 k'

theorem decNeighbors_queue_eq (ns : List String) (hnd : ns.Nodup)
    (indeg : List (String × Int)) (queue : List String) :
    (decNeighbors ns indeg queue).2 =
      queue ++ ns.filter (fun nb => decide (indeg.lookup nb = some 1)) :=
  (decFold_spec ns hnd (indeg, queue)).2

theorem filter_ne_of_not_mem (l : List String) (a : String) (h : ¬ a ∈ l) :
    l.filter (fun x => decide (¬ x = a)) = l := by
  rw [List.filter_eq_self]
  intro x hx
  simp only [decide_eq_true_eq]
  exact fun hxa => h (hxa ▸ hx)

theorem length_filter_ne_of_mem (l : List String) (a : String) (hnd : l.Nodup)
    (h : a ∈ l) :
    (l.filter (fun x => decide (¬ x = a))).length = l.length - 1 := by
  induction l with
  | nil => cases h
  | cons b t ih =>
    obtain ⟨hni, hndt⟩ := List.nodup_cons.mp hnd
    by_cases hba : b = a
    · rw [List.filter_cons, if_neg (by simp [hba]),
        filter_ne_of_not_mem t a (hba ▸ hni)]
      simp
    · have hat : a ∈ t := by
        rcases List.mem_cons.mp h with h' | h'
        · exact absurd h'.symm hba
        · exact h'
      have hlen := ih hndt hat
      have hpos : 0 < t.length := List.length_pos_of_mem hat
      rw [List.filter_cons, if_pos (by simp [hba])]
      simp only [List.length_cons]
      rw [hlen]
      omega

theorem eq_singleton_of_length_one_mem (l : List String) (a : String)
    (hlen : l.length = 1) (h : a ∈ l) : l = [a] := by
  cases l with
  | nil => cases h
  | cons b t =>
    cases t with
    | nil =>
      simp at h
      rw [h]
    | cons c t' => simp at hlen

theorem snoc_split :
    ∀ (l₁ : List String) (k : String) (l₂ R : List String) (node : String),
      l₁ ++ k :: l₂ = R ++ [node] →
      (∃ l₂', R = l₁ ++ k :: l₂') ∨ (l₁ = R ∧ k = node) := by
  intro l₁
  induction l₁ with
  | nil =>
    intro k l₂ R node h
    cases R with
    | nil =>
      simp at h
      exact Or.inr ⟨rfl, h.1⟩
    | cons r R' =>
      simp at h
      exact Or.inl ⟨R', by simp [h.1]⟩
  | cons a l₁' ih =>
    intro k l₂ R node h
    cases R with
    | nil =>
      simp at h
    | cons r R' =>
      rw [List.cons_append, List.cons_append, List.cons.injEq] at h
      obtain ⟨har, hrest⟩ := h
      rcases ih k l₂ R' node hrest with ⟨l₂', hR'⟩ | ⟨h1, h2⟩
      · exact Or.inl ⟨l₂', by simp [har, hR']⟩
      · exact Or.inr ⟨by simp [har, h1], h2⟩

theorem remaining_snoc (fwd : String → List String) (S R : List String)
    (node k : String) :
    remainingOf fwd S (R ++ [node]) k =
      (remainingOf fwd S R k).filter (fun x => decide (¬ x = node)) := by
  unfold remainingOf
  rw [List.filter_filter]
  apply List.filter_congr
  intro x _
  by_cases h1 : x ∈ R
  · simp [h1]
  · by_cases h2 : x = node <;> simp [h1, h2]

theorem kahnLoop_spec (S : List String) (fwd : String → List String)
    (hS : S.Nodup) (hfwd : ∀ k, (fwd k).Nodup)
    (adj : List (String × List String))
    (hadj : ∀ node ∈ S, adj.lookup node = some (readersOf fwd S node)) :
    ∀ (fuel : Nat) (queue : List String) (indeg : List (String × Int))
      (R : List String),
      (∀ x ∈ R, x ∈ S) →
      (∀ x ∈ queue, x ∈ S) →
      R.Nodup →
      queue.Nodup →
      (∀ x ∈ queue, ¬ x ∈ R) →
      (∀ k ∈ S, indeg.lookup k = some ((remainingOf fwd S R k).length : Int)) →
      (∀ k ∈ queue, remainingOf fwd S R k = []) →
      (∀ l₁ k l₂, R = l₁ ++ k :: l₂ → ∀ x ∈ inRefsOf fwd S k, x ∈ l₁) →
      (kahnLoop adj fuel queue indeg R).Nodup ∧
      (∀ x ∈ kahnLoop adj fuel queue indeg R, x ∈ S) ∧
      (∀ l₁ k l₂, kahnLoop adj fuel queue indeg R = l₁ ++ k :: l₂ →
        ∀ x ∈ inRefsOf fwd S k, x ∈ l₁) := by
  intro fuel
  induction fuel with
  | zero =>
    intro queue indeg R hRS _ hRnd _ _ _ _ hRord
    exact ⟨hRnd, hRS, hRord⟩
  | succ f ih =>
    intro queue indeg R hRS hQS hRnd hQnd hdisj hindeg hQdone hRord
    cases queue with
    | nil => exact ⟨hRnd, hRS, hRord⟩
    | cons node qrest =>
      have hnodeS : node ∈ S := hQS node (by simp)
      have hnodeR : ¬ node ∈ R := hdisj node (by simp)
      have hnode_done : remainingOf fwd S R node = [] := hQdone node (by simp)
      have hqrS : ∀ x ∈ qrest, x ∈ S := fun x hx => hQS x (by simp [hx])
      obtain ⟨hnodeq, hqrnd⟩ := List.nodup_cons.mp hQnd
      have hqrdisj : ∀ x ∈ qrest, ¬ x ∈ R := fun x hx => hdisj x (by simp [hx])
      have hqrdone : ∀ k ∈ qrest, remainingOf fwd S R k = [] :=
        fun k hk => hQdone k (by simp [hk])
      have hrdrs : (readersOf fwd S node).Nodup := hS.filter _
      have hRdone : ∀ k ∈ R, remainingOf fwd S R k = [] := by
        intro k hk
        obtain ⟨s, t, hst⟩ := List.append_of_mem hk
        have hsub := hRord s k t hst
        unfold remainingOf
        rw [List.filter_eq_nil]
        intro x hx
        have hxR : x ∈ R := by
          rw [hst]
          exact List.mem_append.mpr (Or.inl (hsub x hx))
        simp [hxR]
      have henqS : ∀ x ∈ (readersOf fwd S node).filter
          (fun nb => decide (indeg.lookup nb = some 1)), x ∈ S :=
        fun x hx => List.mem_of_mem_filter (List.mem_of_mem_filter hx)
      have hlen1 : ∀ x ∈ (readersOf fwd S node).filter
          (fun nb => decide (indeg.lookup nb = some 1)),
          (remainingOf fwd S R x).length = 1 := by
        intro x hx
        have hxs : x ∈ S := henqS x hx
        have hdec := (List.mem_filter.mp hx).2
        rw [decide_eq_true_eq] at hdec
        have h1 := hindeg x hxs
        rw [hdec] at h1
        have h2 := Option.some.inj h1
        omega
      have hnodeInEnqRem : ∀ x ∈ (readersOf fwd S node).filter
          (fun nb => decide (indeg.lookup nb = some 1)),
          node ∈ remainingOf fwd S R x := by
        intro x hx
        have hxr : x ∈ readersOf fwd S node := List.mem_of_mem_filter hx
        have hnf : node ∈ fwd x := by
          have := (List.mem_filter.mp hxr).2
          rwa [decide_eq_true_eq] at this
        simp [remainingOf, inRefsOf, List.mem_filter, hnf, hnodeS, hnodeR]
      -- the eight invariants for the recursive call
      have p1 : ∀ x ∈ R ++ [node], x ∈ S := by
        intro x hx
        rcases List.mem_append.mp hx with hx | hx
        · exact hRS x hx
        · simp at hx
          exact hx ▸ hnodeS
      have p2 : ∀ x ∈ qrest ++ (readersOf fwd S node).filter
          (fun nb => decide (indeg.lookup nb = some 1)), x ∈ S := by
        intro x hx
        rcases List.mem_append.mp hx with hx | hx
        · exact hqrS x hx
        · exact henqS x hx
      have p3 : (R ++ [node]).Nodup := by
        refine hRnd.append (List.nodup_singleton node) ?_
        intro a ha ha2
        simp at ha2
        exact hnodeR (ha2 ▸ ha)
      have p4 : (qrest ++ (readersOf fwd S node).filter
          (fun nb => decide (indeg.lookup nb = some 1))).Nodup := by
        refine hqrnd.append (hrdrs.filter _) ?_
        intro a ha ha2
        have := hlen1 a ha2
        rw [hqrdone a ha] at this
        simp at this
      have p5 : ∀ x ∈ qrest ++ (readersOf fwd S node).filter
          (fun nb => decide (indeg.lookup nb = some 1)), ¬ x ∈ R ++ [node] := by
        intro x hx hx2
        rcases List.mem_append.mp hx with hx | hx
        · rcases List.mem_append.mp hx2 with hx2 | hx2
          · exact hqrdisj x hx hx2
          · simp at hx2
            exact hnodeq (hx2 ▸ hx)
        · have hone := hlen1 x hx
          rcases List.mem_append.mp hx2 with hx2 | hx2
          · rw [hRdone x hx2] at hone
            simp at hone
          · simp at hx2
            rw [hx2, hnode_done] at hone
            simp at hone
      have p6 : ∀ k ∈ S, (decNeighbors (readersOf fwd S node) indeg qrest).1.lookup k =
          some ((remainingOf fwd S (R ++ [node]) k).length : Int) := by
        intro k hk
        rw [decNeighbors_indeg_lookup _ hrdrs]
        have hremnd : (remainingOf fwd S R k).Nodup := by
          unfold remainingOf inRefsOf
          exact ((hfwd k).filter _).filter _
        by_cases hkr : k ∈ readersOf fwd S node
        · have hnf : node ∈ fwd k := by
            have := (List.mem_filter.mp hkr).2
            rwa [decide_eq_true_eq] at this
          have hnrem : node ∈ remainingOf fwd S R k := by
            simp [remainingOf, inRefsOf, List.mem_filter, hnf, hnodeS, hnodeR]
          have hpos := List.length_pos_of_mem hnrem
          rw [if_pos hkr, hindeg k hk, remaining_snoc,
            length_filter_ne_of_mem _ _ hremnd hnrem]
          simp only [Option.map_some', Option.some.injEq]
          omega
        · have hnf : ¬ node ∈ fwd k :=
            fun hnf => hkr (List.mem_filter.mpr ⟨hk, decide_eq_true_eq.mpr hnf⟩)
          have hnrem : ¬ node ∈ remainingOf fwd S R k := by
            simp [remainingOf, inRefsOf, List.mem_filter, hnf]
          rw [if_neg hkr, hindeg k hk, remaining_snoc,
            filter_ne_of_not_mem _ _ hnrem]
      have p7 : ∀ k ∈ qrest ++ (readersOf fwd S node).filter
          (fun nb => decide (indeg.lookup nb = some 1)),
          remainingOf fwd S (R ++ [node]) k = [] := by
        intro k hk
        rcases List.mem_append.mp hk with hk | hk
        · rw [remaining_snoc, hqrdone k hk]
          rfl
        · have hsing : remainingOf fwd S R k = [node] :=
            eq_singleton_of_length_one_mem _ _ (hlen1 k hk) (hnodeInEnqRem k hk)
          rw [remaining_snoc, hsing]
          simp
      have p8 : ∀ l₁ k l₂, R ++ [node] = l₁ ++ k :: l₂ →
          ∀ x ∈ inRefsOf fwd S k, x ∈ l₁ := by
        intro l₁ k l₂ hsplit x hx
        rcases snoc_split l₁ k l₂ R node hsplit.symm with ⟨l₂', hR⟩ | ⟨h1, h2⟩
        · exact hRord l₁ k l₂' hR x hx
        · subst h2
          have hxR : x ∈ R := by
            by_contra hxnR
            have hxrem : x ∈ remainingOf fwd S R k := by
              unfold remainingOf
              exact List.mem_filter.mpr ⟨hx, by simp [hxnR]⟩
            rw [hnode_done] at hxrem
            simp at hxrem
          exact h1 ▸ hxR
      simp only [kahnLoop, hadj node hnodeS, Option.getD_some,
        decNeighbors_queue_eq _ hrdrs indeg qrest]
      exact ih _ _ _ p1 p2 p3 p4 p5 p6 p7 p8

theorem append_filter_perm (S : List String) (hS : S.Nodup) (R0 : List String)
    (hnd : R0.Nodup) (hsub : ∀ x ∈ R0, x ∈ S) :
    (R0 ++ S.filter (fun k => ¬ k ∈ R0)).Perm S := by
  have houtnd : (R0 ++ S.filter (fun k => ¬ k ∈ R0)).Nodup := by
    refine hnd.append (hS.filter _) ?_
    intro a ha ha2
    have := (List.mem_filter.mp ha2).2
    rw [decide_eq_true_eq] at this
    exact this ha
  refine (List.perm_ext_iff_of_nodup houtnd hS).mpr ?_
  intro a
  constructor
  · intro ha
    rcases List.mem_append.mp ha with ha | ha
    · exact hsub a ha
    · exact List.mem_of_mem_filter ha
  · intro ha
    by_cases hr : a ∈ R0
    · exact List.mem_append.mpr (Or.inl hr)
    · exact List.mem_append.mpr (Or.inr (List.mem_filter.mpr ⟨ha, by simp [hr]⟩))

theorem topoSort_spec (g : DepGraph) (S : List String) (hS : S.Nodup)
    (hfwd : ∀ k, (fwdOf g k).Nodup) :
    (topoSort g S).Perm S ∧
    ∃ main, topoSort g S = main ++ S.filter (fun k => ¬ k ∈ main) ∧
      ∀ l₁ k l₂, main = l₁ ++ k :: l₂ →
        ∀ x ∈ inRefsOf (fwdOf g) S k, x ∈ l₁ := by
  by_cases hemp : S.isEmpty = true
  · have hSnil : S = [] := by
      cases S with
      | nil => rfl
      | cons a t => simp [List.isEmpty] at hemp
    subst hSnil
    refine ⟨by simp [topoSort], [], by simp [topoSort], ?_⟩
    intro l₁ k l₂ h x hx
    rw [List.nil_eq] at h
    cases l₁ <;> simp at h
  · have hadj : ∀ node ∈ S, (buildIndegAdj S (fwdOf g)).2.lookup node =
        some (readersOf (fwdOf g) S node) :=
      fun node hn => buildIndegAdj_adj_lookup S (fwdOf g) hfwd node hn
    have i6 : ∀ k ∈ S, (buildIndegAdj S (fwdOf g)).1.lookup k =
        some ((remainingOf (fwdOf g) S [] k).length : Int) := by
      intro k hk
      have hrem : remainingOf (fwdOf g) S [] k = inRefsOf (fwdOf g) S k := by
        unfold remainingOf
        rw [List.filter_eq_self]
        intro x _
        simp
      rw [buildIndegAdj_indeg_lookup S (fwdOf g) hS k hk, hrem]
    have i7 : ∀ k ∈ S.filter
        (fun k => (buildIndegAdj S (fwdOf g)).1.lookup k = some 0),
        remainingOf (fwdOf g) S [] k = [] := by
      intro k hk
      have hkS := List.mem_of_mem_filter hk
      have h0 : (buildIndegAdj S (fwdOf g)).1.lookup k = some 0 := by
        have := (List.mem_filter.mp hk).2
        rwa [decide_eq_true_eq] at this
      have h6 := i6 k hkS
      rw [h0] at h6
      have h2 := Option.some.inj h6
      have hlen : (remainingOf (fwdOf g) S [] k).length = 0 := by omega
      exact List.eq_nil_of_length_eq_zero hlen
    obtain ⟨hnd, hsub, hord⟩ := kahnLoop_spec S (fwdOf g) hS hfwd
      (buildIndegAdj S (fwdOf g)).2 hadj (2 * S.length + 2)
      (S.filter (fun k => (buildIndegAdj S (fwdOf g)).1.lookup k = some 0))
      (buildIndegAdj S (fwdOf g)).1 []
      (by simp)
      (fun x hx => List.mem_of_mem_filter hx)
      List.nodup_nil
      (hS.filter _)
      (by simp)
      i6
      i7
      (by intro l₁ k l₂ h x hx; rw [List.nil_eq] at h; cases l₁ <;> simp at h)
    have hts : topoSort g S =
        kahnLoop (buildIndegAdj S (fwdOf g)).2 (2 * S.length + 2)
          (S.filter (fun k => (buildIndegAdj S (fwdOf g)).1.lookup k = some 0))
          (buildIndegAdj S (fwdOf g)).1 [] ++
        S.filter (fun k => ¬ k ∈ kahnLoop (buildIndegAdj S (fwdOf g)).2
          (2 * S.length + 2)
          (S.filter (fun k => (buildIndegAdj S (fwdOf g)).1.lookup k = some 0))
          (buildIndegAdj S (fwdOf g)).1 []) := by
      simp only [topoSort, if_neg hemp]
    refine ⟨?_, _, hts, hord⟩
    rw [hts]
    exact append_filter_perm S hS _ hnd hsub

theorem addRef_nodup {acc : List String} (h : acc.Nodup) (k : String) :
    (addRef acc k).Nodup := by
  unfold addRef
  split
  · exact h
  · rename_i hk
    refine h.append (List.nodup_singleton k) ?_
    intro a ha ha2
    simp at ha2
    exact hk (ha2 ▸ ha)

theorem foldl_addRef_nodup {α : Type} (f : α → String) :
    ∀ (l : List α) (acc : List String), acc.Nodup →
      (l.foldl (fun a x => addRef a (f x)) acc).Nodup := by
  intro l
  induction l with
  | nil => intro acc h; exact h
  | cons x t ih => intro acc h; exact ih _ (addRef_nodup h (f x))

theorem refsFold1_nodup :
    ∀ (ps : List (Sum Char FuncMatch)) (acc : List String), acc.Nodup →
      (ps.foldl (fun acc p =>
        match p with
        | .inl _ => acc
        | .inr fm =>
            match expand_range (fm.ref1 ++ ':' :: fm.ref2) with
            | .ok cells => cells.foldl (fun a rc => addRef a (keyOf rc.1 rc.2)) acc
            | .error _ => acc) acc).Nodup := by
  intro ps
  induction ps with
  | nil => intro acc h; exact h
  | cons p t ih =>
    intro acc h
    rw [List.foldl_cons]
    refine ih _ ?_
    cases p with
    | inl c => exact h
    | inr fm =>
      dsimp only
      cases expand_range (fm.ref1 ++ ':' :: fm.ref2) with
      | ok cells => exact foldl_addRef_nodup (fun rc => keyOf rc.1 rc.2) cells acc h
      | error e => exact h

theorem refsFold2_nodup :
    ∀ (ps : List (Sum Char (List Char × List Char))) (acc : List String),
      acc.Nodup →
      (ps.foldl (fun acc p =>
        match p with
        | .inl _ => acc
        | .inr m =>
            match parse_cell_ref (m.1 ++ m.2) with
            | .ok (r, c) => addRef acc (keyOf r c)
            | .error _ => acc) acc).Nodup := by
  intro ps
  induction ps with
  | nil => intro acc h; exact h
  | cons p t ih =>
    intro acc h
    rw [List.foldl_cons]
    refine ih _ ?_
    cases p with
    | inl c => exact h
    | inr m =>
      dsimp only
      cases parse_cell_ref (m.1 ++ m.2) with
      | ok rc =>
        obtain ⟨r, c⟩ := rc
        exact addRef_nodup h (keyOf r c)
      | error e => exact h

theorem extract_refs_nodup (f : String) : (extract_refs f).Nodup := by
  unfold extract_refs
  exact refsFold2_nodup _ _ (refsFold1_nodup _ _ List.nodup_nil)

theorem buildGraph_fwd_values_nodup (formulas : List (String × String)) :
    ∀ p ∈ (buildGraph formulas).forward, p.2.Nodup := by
  unfold buildGraph
  suffices hgen : ∀ (fs : List (String × String)) (g0 : DepGraph),
      (∀ p ∈ g0.forward, p.2.Nodup) →
      ∀ p ∈ (fs.foldl (fun g kf =>
        { forward := alistUpsert g.forward kf.1 (extract_refs kf.2)
          reverse := (extract_refs kf.2).foldl
            (fun rev ref => reverseAdd rev ref kf.1) g.reverse }) g0).forward,
        p.2.Nodup by
    intro p hp
    exact hgen formulas ⟨[], []⟩ (fun p hp => by simp at hp) p hp
  intro fs
  induction fs with
  | nil => intro g0 hg0; exact hg0
  | cons kf t ih =>
    intro g0 hg0
    refine ih _ ?_
    intro p hp
    rcases alistUpsert_mem hp with hp | hp
    · exact hg0 p hp
    · rw [hp]
      exact extract_refs_nodup kf.2

theorem buildGraph_fwdOf_nodup (formulas : List (String × String)) (k : String) :
    (fwdOf (buildGraph formulas) k).Nodup := by
  unfold fwdOf
  cases hlk : (buildGraph formulas).forward.lookup k with
  | none => simp
  | some l =>
    simp only [Option.getD_some]
    exact buildGraph_fwd_values_nodup formulas _ (lookup_mem _ _ _ hlk)

/-- C4 (amended): for every formula map and every duplicate-free subset `S`
of keys, `_topo_sort(S)` returns a permutation of `S` of the form
`main ++ (S ∖ main in subset order)`: the keys ordered by the main Kahn loop
followed by the keys whose in-degree never reached zero, and every key in
`main` appears after every key of `S` that its formula reads. -/
theorem c4_topo_sort_amended (formulas : List (String × String))
    (S : List String) (hS : S.Nodup) :
    (topoSort (buildGraph formulas) S).Perm S ∧
    ∃ main, topoSort (buildGraph formulas) S =
        main ++ S.filter (fun k => ¬ k ∈ main) ∧
      ∀ l₁ k l₂, main = l₁ ++ k :: l₂ →
        ∀ x ∈ inRefsOf (fwdOf (buildGraph formulas)) S k, x ∈ l₁ :=
  topoSort_spec (buildGraph formulas) S hS (buildGraph_fwdOf_nodup formulas)

theorem c4_witness :
    (["0,1", "0,0"] : List String).Nodup ∧
    ((topoSort (buildGraph [("0,0", "=B1"), ("0,1", "=A1")]) ["0,1", "0,0"]).Perm
        ["0,1", "0,0"] ∧
     ∃ main, topoSort (buildGraph [("0,0", "=B1"), ("0,1", "=A1")]) ["0,1", "0,0"] =
         main ++ (["0,1", "0,0"] : List String).filter (fun k => ¬ k ∈ main) ∧
       ∀ l₁ k l₂, main = l₁ ++ k :: l₂ →
         ∀ x ∈ inRefsOf (fwdOf (buildGraph [("0,0", "=B1"), ("0,1", "=A1")]))
             ["0,1", "0,0"] k, x ∈ l₁) :=
  ⟨by decide,
   c4_topo_sort_amended [("0,0", "=B1"), ("0,1", "=A1")] ["0,1", "0,0"] (by decide)⟩

end CrowForge
